import Mathlib

/-!
# xbusd, the message broker of the xbus interprocess bus

A shallow embedding of `src/server/xbusd.c`, and of the packet functions of the
client library `src/library/xbus.c`, with theorems about them.

Conventions of the embedding.

* A C string is the list of its bytes (`List Nat`, each byte in `1..255`); the
  end of the list plays the part of the terminating NUL, so `*p == 0` in the
  source is "the list is empty" here.
* A singly linked list (`next_ptr`) is a `List` of its records, head first.
* A `struct client *` that points into the client list is the position of the
  record in that list: two pointers are equal exactly when the positions are.
* The two globals `first_message_ptr` and `first_client_ptr` are the two fields
  of the state `broker`, passed explicitly.
* Every call of `send` is recorded as a `packet` (descriptor and bytes) in the
  list a function returns; whether the kernel then delivers it is not modelled.
* The default build is embedded (`DEBUG` undefined, so `debuglog` expands to
  nothing).  Log output (`syslog`) and the display name looked up for it (the
  `name` field, written and read by `get_name` only) are left out of the state.
-/

namespace Xbus

/-! ## Data model -/

/-- The bytes of an ASCII literal, used to write C strings readably. -/
def bytes (s : String) : List Nat := s.toList.map Char.toNat

/-- Maximum packet size, `#define XBUS_MAX_SIZE 8192`. -/
def XBUS_MAX_SIZE : Nat := 8192

/-- Stored message, `struct message` (without `next_ptr`). -/
structure message where
  size : Nat
  topic : List Nat
  payload : List Nat
deriving DecidableEq

/-- Message subscription, `struct subscribe` (without `next_ptr`). -/
structure subscribe where
  topic : List Nat
deriving DecidableEq

/-- Client data, `struct client` (without `next_ptr` and the log-only `name`). -/
structure client where
  sk : Int
  subscribe_ptr : List subscribe
deriving DecidableEq

/-- The two global lists of the broker. -/
structure broker where
  first_message_ptr : List message
  first_client_ptr : List client
deriving DecidableEq

/-- One call of `send`: the descriptor and the bytes handed to the kernel. -/
structure packet where
  sk : Int
  data : List Nat
deriving DecidableEq

/-! ## String helpers of the C library used by the broker -/

/-- Sign of `strcmp`: bytes are compared as unsigned values, a proper initial
part is smaller. The result is `-1`, `0` or `1`; the source only uses the sign. -/
def strcmp : List Nat → List Nat → Int
  | [], [] => 0
  | [], _ :: _ => -1
  | _ :: _, [] => 1
  | a :: s, b :: t => if a < b then -1 else if b < a then 1 else strcmp s t

/-! ## Topic matcher -/

/-- The inner loop of `match_topic`: `while (*topic && *topic != '/') topic++`. -/
def skip_segment : List Nat → List Nat
  | [] => []
  | c :: topic => if c ≠ 47 then skip_segment topic else c :: topic

/-- Compare the message topic with the regular expression (`match_topic`).
Every turn of the outer loop consumes one byte of `regex`, which is the
argument of the recursion. `'+'` is 43, `'*'` is 42 and `'/'` is 47. -/
def match_topic : List Nat → List Nat → Bool
  | topic, [] => topic.isEmpty
  | topic, r :: regex =>
    if r = 43 then
      match_topic (skip_segment topic) regex
    else if r = 42 then
      true
    else
      match topic with
      | [] => false
      | c :: rest => if r ≠ c then false else match_topic rest regex

/-! ## Sending -/

/-- Send the packet to the client (`send_packet`): `snprintf` writes at most
`sizeof(buffer) - 1` bytes of `"%s\n%s"` and a NUL; `strlen(buffer) + 1` bytes
are sent, i.e. the text and its terminator. -/
def send_packet (client_ptr : client) (topic payload : List Nat) : packet :=
  let buffer := (topic ++ 10 :: payload).take (XBUS_MAX_SIZE - 1)
  { sk := client_ptr.sk, data := buffer ++ [0] }

/-! ## Retained message store -/

/-- Store a received message (`store_message`). The scan
`while (this_ptr && strcmp(this_ptr->topic, topic) < 0)` is the first branch;
the other branches are the code after the loop. -/
def store_message : List message → List Nat → List Nat → List message
  | [], topic, payload =>
    [{ size := payload.length, topic := topic, payload := payload }]
  | this :: rest, topic, payload =>
    if strcmp this.topic topic < 0 then
      this :: store_message rest topic payload
    else if strcmp this.topic topic = 0 then
      (if payload.length > this.size then
        { this with size := payload.length, payload := payload }
      else
        { this with payload := payload }) :: rest
    else
      { size := payload.length, topic := topic, payload := payload } :: this :: rest

/-- Find a stored message according to the topic (`find_stored_message`);
`none` is the NULL pointer. -/
def find_stored_message : List message → List Nat → Option message
  | [], _ => none
  | this :: rest, topic =>
    if strcmp this.topic topic ≠ 0 then find_stored_message rest topic else some this

/-- Send all stored messages for the topic to the client
(`send_stored_messages`). -/
def send_stored_messages (client_ptr : client) (topic : List Nat) :
    List message → List packet
  | [] => []
  | this :: rest =>
    if this.payload ≠ [] ∧ match_topic this.topic topic = true then
      send_packet client_ptr this.topic this.payload ::
        send_stored_messages client_ptr topic rest
    else
      send_stored_messages client_ptr topic rest

/-! ## Dispatcher -/

/-- The loop of `send_message` over the list of subscribed topics, with its
`break` after the first match. -/
def send_message_loop (client_ptr : client) (topic payload : List Nat) :
    List subscribe → List packet
  | [] => []
  | this :: rest =>
    if match_topic topic this.topic = true then
      [send_packet client_ptr topic payload]
    else
      send_message_loop client_ptr topic payload rest

/-- Send the message to the client if he has subscribed to the topic
(`send_message`). -/
def send_message (client_ptr : client) (topic payload : List Nat) : List packet :=
  send_message_loop client_ptr topic payload client_ptr.subscribe_ptr

/-- The loop of `dispatch_message`; `pos` is the position of the head of the
remaining list, so `pos ≠ client_ptr` is `this_ptr != client_ptr`. -/
def dispatch_loop (client_ptr : Nat) (topic payload : List Nat) :
    Nat → List client → List packet
  | _, [] => []
  | pos, this :: rest =>
    (if pos ≠ client_ptr then send_message this topic payload else []) ++
      dispatch_loop client_ptr topic payload (pos + 1) rest

/-- Send the message to all clients who have subscribed to the topic
(`dispatch_message`). -/
def dispatch_message (clients : List client) (client_ptr : Nat)
    (topic payload : List Nat) : List packet :=
  dispatch_loop client_ptr topic payload 0 clients

/-! ## Command handlers -/

/-- Process the command PUBLISH (`process_publish`). -/
def process_publish (b : broker) (client_ptr : Nat) (topic payload : List Nat) :
    broker × List packet :=
  (b, dispatch_message b.first_client_ptr client_ptr topic payload)

/-- Process the command WRITE (`process_write`): dispatch, then store. -/
def process_write (b : broker) (client_ptr : Nat) (topic payload : List Nat) :
    broker × List packet :=
  let sent := dispatch_message b.first_client_ptr client_ptr topic payload
  ({ b with first_message_ptr := store_message b.first_message_ptr topic payload }, sent)

/-- Process the command READ (`process_read`). -/
def process_read (b : broker) (client_ptr : Nat) (topic : List Nat) :
    broker × List packet :=
  match b.first_client_ptr[client_ptr]? with
  | none => (b, [])
  | some c =>
    match find_stored_message b.first_message_ptr topic with
    | some this => (b, [send_packet c topic this.payload])
    | none => (b, [send_packet c topic []])

/-- Process the command SUBSCRIBE (`process_subscribe`): the new record becomes
the head of the client's list, then the stored messages are sent. -/
def process_subscribe (b : broker) (client_ptr : Nat) (topic : List Nat) :
    broker × List packet :=
  match b.first_client_ptr[client_ptr]? with
  | none => (b, [])
  | some c =>
    let c1 : client := { c with subscribe_ptr := { topic := topic } :: c.subscribe_ptr }
    ({ b with first_client_ptr := b.first_client_ptr.set client_ptr c1 },
      send_stored_messages c1 topic b.first_message_ptr)

/-- The search and removal of `process_unsubscribe` on the subscription list. -/
def unsubscribe_loop (topic : List Nat) : List subscribe → List subscribe
  | [] => []
  | this :: rest =>
    if strcmp this.topic topic ≠ 0 then this :: unsubscribe_loop topic rest else rest

/-- Process the command UNSUBSCRIBE (`process_unsubscribe`). -/
def process_unsubscribe (b : broker) (client_ptr : Nat) (topic : List Nat) :
    broker × List packet :=
  match b.first_client_ptr[client_ptr]? with
  | none => (b, [])
  | some c =>
    let c1 : client := { c with subscribe_ptr := unsubscribe_loop topic c.subscribe_ptr }
    ({ b with first_client_ptr := b.first_client_ptr.set client_ptr c1 }, [])

/-- The loop of `process_list` that fills `payload`:
`strlen(payload) + strlen(this_ptr->topic) < sizeof(payload) - 8`. -/
def list_loop : List Nat → List message → List Nat
  | payload, [] => payload
  | payload, this :: rest =>
    if payload.length + this.topic.length < XBUS_MAX_SIZE - 8 then
      list_loop (payload ++ this.topic ++ [10]) rest
    else
      payload

/-- Process the command LIST (`process_list`). -/
def process_list (b : broker) (client_ptr : Nat) : broker × List packet :=
  match b.first_client_ptr[client_ptr]? with
  | none => (b, [])
  | some c => (b, [send_packet c (bytes "%list") (list_loop [] b.first_message_ptr)])

/-! ## Client registry and command router -/

/-- Destroy a client record (`destroy_client`): the first record with the
descriptor is unlinked and freed together with its subscriptions. -/
def destroy_client : List client → Int → List client
  | [], _ => []
  | this :: rest, sk =>
    if this.sk ≠ sk then this :: destroy_client rest sk else rest

/-- One call of `strtok` in a sequence on the same string. `s` is the text from
the saved position on; the result is the token (`none` for NULL) and the text
from the new saved position on. Leading delimiters are skipped, the token runs
up to the next delimiter, which is overwritten and stepped over. -/
def strtok (s delim : List Nat) : Option (List Nat) × List Nat :=
  let start := s.dropWhile (fun c => decide (c ∈ delim))
  if start = [] then
    (none, [])
  else
    (some (start.takeWhile (fun c => decide (c ∉ delim))),
      (start.dropWhile (fun c => decide (c ∉ delim))).drop 1)

/-- The three `strtok` calls of `receive_packet` on the terminated buffer:
command, topic and payload. Bytes after an embedded NUL are never read. -/
def split_packet (buffer : List Nat) :
    Option (List Nat) × Option (List Nat) × Option (List Nat) :=
  let text := buffer.takeWhile (fun c => decide (c ≠ 0))
  let command := strtok text [32, 10]
  let topic := strtok command.2 [10]
  let payload := strtok topic.2 []
  (command.1, topic.1, payload.1)

/-- Receive and process a packet from a client (`receive_packet`). `buffer` is
what `recv` stored, `size` its length; an empty list stands for `size <= 0`
(end of stream or error). -/
def receive_packet (b : broker) (client_ptr : Nat) (buffer : List Nat) :
    broker × List packet :=
  match b.first_client_ptr[client_ptr]? with
  | none => (b, [])
  | some c =>
    if buffer.length = 0 then
      ({ b with first_client_ptr := destroy_client b.first_client_ptr c.sk }, [])
    else if buffer.length = XBUS_MAX_SIZE then
      (b, [])
    else
      match split_packet buffer with
      | (_, none, _) => (b, [])
      | (none, some _, _) => (b, [])
      | (some command, some topic, payload) =>
        if topic = [] then
          (b, [])
        else if strcmp command (bytes "PUBLISH") = 0 then
          process_publish b client_ptr topic (payload.getD [])
        else if strcmp command (bytes "WRITE") = 0 then
          process_write b client_ptr topic (payload.getD [])
        else if strcmp command (bytes "READ") = 0 then
          process_read b client_ptr topic
        else if strcmp command (bytes "SUBSCRIBE") = 0 then
          process_subscribe b client_ptr topic
        else if strcmp command (bytes "UNSUBSCRIBE") = 0 then
          process_unsubscribe b client_ptr topic
        else if strcmp command (bytes "LIST") = 0 then
          process_list b client_ptr
        else
          (b, [])

/-- The ordering invariant of the retained store: every entry compares below
every later entry under `strcmp` on the topics. -/
def store_ordered (s : List message) : Prop :=
  s.Pairwise (fun a b => strcmp a.topic b.topic < 0)

/-- The store after a sequence of `store_message` calls on the empty store. -/
def store_after (writes : List (List Nat × List Nat)) : List message :=
  writes.foldl (fun s w => store_message s w.1 w.2) []

/-- The last block of `receive_packet`, "process the received command": the
chain of `strcmp` tests on the command word and the handler each one calls,
with the command, topic and payload the packet was split into. -/
def route_command (b : broker) (client_ptr : Nat) (command topic payload : List Nat) :
    broker × List packet :=
  if strcmp command (bytes "PUBLISH") = 0 then
    process_publish b client_ptr topic payload
  else if strcmp command (bytes "WRITE") = 0 then
    process_write b client_ptr topic payload
  else if strcmp command (bytes "READ") = 0 then
    process_read b client_ptr topic
  else if strcmp command (bytes "SUBSCRIBE") = 0 then
    process_subscribe b client_ptr topic
  else if strcmp command (bytes "UNSUBSCRIBE") = 0 then
    process_unsubscribe b client_ptr topic
  else if strcmp command (bytes "LIST") = 0 then
    process_list b client_ptr
  else
    (b, [])

/-- The request decoding as the specification words it: the text before the
first line feed is the command up to the first space and the topic after it,
and the payload is every byte after the first line feed. -/
def decode_by_first_line (buffer : List Nat) : List Nat × List Nat × List Nat :=
  let line := buffer.takeWhile (fun c => decide (c ≠ 10))
  (line.takeWhile (fun c => decide (c ≠ 32)),
    (line.dropWhile (fun c => decide (c ≠ 32))).drop 1,
    (buffer.dropWhile (fun c => decide (c ≠ 10))).drop 1)

/-- The longest payload among the writes to a topic in a sequence of writes
(0 when there is none). -/
def longest_written (writes : List (List Nat × List Nat)) (topic : List Nat) : Nat :=
  ((writes.filter (fun w => decide (w.1 = topic))).map (fun w => w.2.length)).foldl max 0

/-! ## Client library (`src/library/xbus.c`) -/

/-- The inner loop of `concat` on one source string,
`while (*src && size > 1) { *dst++ = *src++; size--; }`: the bytes copied and
the value of `size` afterwards. -/
def concat_copy : List Nat → Nat → List Nat × Nat
  | [], size => ([], size)
  | c :: src, size =>
    if size > 1 then
      (c :: (concat_copy src (size - 1)).1, (concat_copy src (size - 1)).2)
    else
      ([], size)

/-- Concatenate multiple strings (`concat`): the string left in `dst`, where
`srcs` is the argument list up to the closing NULL. The function stores these
bytes and one terminating NUL. -/
def concat : List (List Nat) → Nat → List Nat
  | [], _ => []
  | src :: rest, size => (concat_copy src size).1 ++ concat rest (concat_copy src size).2

/-- Send the packet to the message broker (`xbus_send`): the bytes handed to
`send`, `strlen(buffer) + 1` bytes of the buffer `concat` filled. -/
def xbus_send (command topic payload : List Nat) : List Nat :=
  concat [command, [32], topic, [10], payload] XBUS_MAX_SIZE ++ [0]

/-- Receive a message (`xbus_receive`): the topic and the message text. `frame`
is what `recv` stored at the start of the static buffer and `old` the previous
content of the buffer (bytes past its end are 0); `none` is the `exit` taken
when `recv` returns `size <= 0`. `buffer[sizeof(buffer) - 1] = 0` cuts the
text at 8191 bytes, `strchrnul` splits it at the first line feed. -/
def xbus_receive (old frame : List Nat) : Option (List Nat × List Nat) :=
  if frame.length = 0 then
    none
  else
    let buffer := (frame ++ old.drop frame.length).take (XBUS_MAX_SIZE - 1)
    let text := buffer.takeWhile (fun c => decide (c ≠ 0))
    some (text.takeWhile (fun c => decide (c ≠ 10)),
      (text.dropWhile (fun c => decide (c ≠ 10))).drop 1)

/-! ## Event loop steps and allocation bookkeeping -/

/-- Create a client record (`create_client`): the new record, without
subscriptions, becomes the head of the list of clients. -/
def create_client (clients : List client) (sk : Int) : List client :=
  { sk := sk, subscribe_ptr := [] } :: clients

/-- What the main loop does to the state in one turn: it accepts a connection
(`create_client`) or lets `receive_packet` handle what `recv` returned for a
client. -/
inductive event where
  | accept (sk : Int)
  | receive (client_ptr : Nat) (buffer : List Nat)
deriving DecidableEq

/-- The state after one event of the main loop. -/
def broker_step (b : broker) : event → broker
  | event.accept sk => { b with first_client_ptr := create_client b.first_client_ptr sk }
  | event.receive client_ptr buffer => (receive_packet b client_ptr buffer).1

/-- The state after a sequence of events, starting with both lists empty. -/
def broker_after (events : List event) : broker :=
  events.foldl broker_step { first_message_ptr := [], first_client_ptr := [] }

/-- A stored message with the number of bytes allocated for its payload buffer.
`allocated` is not a field of `struct message`: it records what `strdup` gave,
`strlen + 1` bytes, so that the in-place `strcpy` can be checked against it. -/
structure message_buffer where
  entry : message
  allocated : Nat
deriving DecidableEq

/-- The function `store_message` with the payload buffers tracked: `safe_strdup`
allocates `strlen(payload) + 1` bytes, `strcpy` stores `strlen(payload) + 1`
bytes into the existing buffer. The result is `none` when that `strcpy` would
write past the end of the buffer. -/
def store_message_alloc :
    List message_buffer → List Nat → List Nat → Option (List message_buffer)
  | [], topic, payload =>
    some [{ entry := { size := payload.length, topic := topic, payload := payload },
            allocated := payload.length + 1 }]
  | this :: rest, topic, payload =>
    if strcmp this.entry.topic topic < 0 then
      (store_message_alloc rest topic payload).map (fun l => this :: l)
    else if strcmp this.entry.topic topic = 0 then
      if payload.length > this.entry.size then
        some ({ entry := { this.entry with size := payload.length, payload := payload },
                allocated := payload.length + 1 } :: rest)
      else if payload.length + 1 ≤ this.allocated then
        some ({ entry := { this.entry with payload := payload },
                allocated := this.allocated } :: rest)
      else
        none
    else
      some ({ entry := { size := payload.length, topic := topic, payload := payload },
              allocated := payload.length + 1 } :: this :: rest)

/-- The tracked store after a sequence of `store_message` calls on the empty
store; `none` as soon as one call writes past a buffer. -/
def alloc_after (writes : List (List Nat × List Nat)) : Option (List message_buffer) :=
  writes.foldl (fun s w => s.bind (fun l => store_message_alloc l w.1 w.2)) (some [])

end Xbus

namespace Xbus

/-! ## Topic matcher: theorems -/

/-- C2: the six examples of the specification evaluate as stated. -/
theorem match_topic_examples :
    match_topic (bytes "a/b/c") (bytes "a/+/c") = true ∧
    match_topic (bytes "a/b/b/c") (bytes "a/+/c") = false ∧
    match_topic (bytes "a/b") (bytes "a/*") = true ∧
    match_topic (bytes "a") (bytes "*") = true ∧
    match_topic (bytes "a/b") (bytes "a") = false ∧
    match_topic (bytes "") (bytes "+") = true := by
  decide

theorem match_topic_nil (topic : List Nat) :
    match_topic topic [] = true ↔ topic = [] := by
  cases topic <;> simp [match_topic]

theorem match_topic_star (topic regex : List Nat) :
    match_topic topic (42 :: regex) = true := by
  simp [match_topic]

theorem match_topic_plus (topic regex : List Nat) :
    match_topic topic (43 :: regex) = match_topic (skip_segment topic) regex := by
  simp [match_topic]

theorem match_topic_literal (topic regex : List Nat) (r : Nat) (h43 : r ≠ 43)
    (h42 : r ≠ 42) :
    match_topic topic (r :: regex) = true ↔
      ∃ rest, topic = r :: rest ∧ match_topic rest regex = true := by
  cases topic with
  | nil => simp [match_topic, h43, h42]
  | cons c rest =>
    by_cases hc : r = c
    · subst hc
      simp [match_topic, h43, h42]
    · have hc2 : ¬ c = r := fun h => hc h.symm
      simp [match_topic, h43, h42, hc, hc2]

/-- What follows a `*` in the pattern does not change the result. -/
theorem match_topic_append_star (p q topic : List Nat) (hp : 42 ∉ p) :
    match_topic topic (p ++ 42 :: q) = match_topic topic (p ++ [42]) := by
  induction p generalizing topic with
  | nil => simp [match_topic]
  | cons r p ih =>
    have hr : r ≠ 42 := fun h => hp (by simp [h])
    have hp2 : 42 ∉ p := fun h => hp (List.mem_cons_of_mem _ h)
    by_cases h43 : r = 43
    · subst h43
      simp only [List.cons_append, match_topic_plus]
      exact ih _ hp2
    · cases topic with
      | nil => simp [match_topic, h43, hr]
      | cons c rest =>
        by_cases hc : r = c
        · subst hc
          simp only [List.cons_append, match_topic, h43, hr, if_false, ne_eq,
            not_true_eq_false]
          exact ih _ hp2
        · simp [match_topic, h43, hr, hc]

/-- A pattern that starts with bytes other than `+` and `*` matches exactly the
topics that start with the same bytes and whose remainder matches the rest. -/
theorem match_topic_literal_append (p regex topic : List Nat) (h42 : 42 ∉ p)
    (h43 : 43 ∉ p) :
    match_topic topic (p ++ regex) = true ↔
      ∃ rest, topic = p ++ rest ∧ match_topic rest regex = true := by
  induction p generalizing topic with
  | nil => simp
  | cons r p ih =>
    have hr42 : r ≠ 42 := fun h => h42 (by simp [h])
    have hr43 : r ≠ 43 := fun h => h43 (by simp [h])
    have hp42 : 42 ∉ p := fun h => h42 (List.mem_cons_of_mem _ h)
    have hp43 : 43 ∉ p := fun h => h43 (List.mem_cons_of_mem _ h)
    rw [List.cons_append, match_topic_literal _ _ _ hr43 hr42]
    constructor
    · rintro ⟨rest, rfl, hm⟩
      obtain ⟨rest2, rfl, hm2⟩ := (ih rest hp42 hp43).1 hm
      exact ⟨rest2, rfl, hm2⟩
    · rintro ⟨rest, rfl, hm⟩
      exact ⟨p ++ rest, rfl, (ih _ hp42 hp43).2 ⟨rest, rfl, hm⟩⟩

/-- C4: the part of a pattern after its first `*` is never examined, and a
pattern made of bytes other than `+` and `*` followed by `*` matches exactly
the topics it is an initial part of. -/
theorem match_topic_star_suffix (text p q : List Nat) (hp : 42 ∉ p) :
    match_topic text (p ++ [42] ++ q) = match_topic text (p ++ [42]) ∧
    (43 ∉ p → (match_topic text (p ++ [42] ++ q) = true ↔ p <+: text)) := by
  have e : p ++ [42] ++ q = p ++ 42 :: q := by simp
  rw [e]
  refine ⟨match_topic_append_star p q text hp, fun h43 => ?_⟩
  rw [match_topic_literal_append p (42 :: q) text hp h43]
  constructor
  · rintro ⟨rest, rfl, _⟩
    exact List.prefix_append p rest
  · rintro ⟨rest, rfl⟩
    exact ⟨rest, rfl, match_topic_star rest q⟩

theorem match_topic_star_suffix_witness :
    42 ∉ bytes "a/" ∧ 43 ∉ bytes "a/" ∧
    match_topic (bytes "a/b") (bytes "a/" ++ [42] ++ bytes "zz") = true ∧
    match_topic (bytes "b/a/") (bytes "a/" ++ [42] ++ bytes "zz") = false ∧
    match_topic [] ([] ++ [42] ++ []) = true :=
  ⟨by decide, by decide,
    ((match_topic_star_suffix (bytes "a/b") (bytes "a/") (bytes "zz") (by decide)).2
      (by decide)).2 (by decide),
    by decide, by decide⟩

/-! ### Segments -/

theorem skip_segment_of_not_mem (s : List Nat) (h : 47 ∉ s) : skip_segment s = [] := by
  induction s with
  | nil => rfl
  | cons c s ih =>
    have hc : c ≠ 47 := fun e => h (by simp [e])
    simp [skip_segment, hc, ih (fun m => h (List.mem_cons_of_mem _ m))]

theorem skip_segment_append (s t : List Nat) (h : 47 ∉ s) :
    skip_segment (s ++ 47 :: t) = 47 :: t := by
  induction s with
  | nil => simp [skip_segment]
  | cons c s ih =>
    have hc : c ≠ 47 := fun e => h (by simp [e])
    simp [skip_segment, hc, ih (fun m => h (List.mem_cons_of_mem _ m))]

/-- A byte string either has no `/` or splits at its first `/`. -/
theorem first_slash (l : List Nat) :
    47 ∉ l ∨ ∃ s t, l = s ++ 47 :: t ∧ 47 ∉ s := by
  induction l with
  | nil => exact Or.inl (by simp)
  | cons c l ih =>
    by_cases hc : c = 47
    · exact Or.inr ⟨[], l, by simp [hc], by simp⟩
    · rcases ih with h | ⟨s, t, rfl, hs⟩
      · exact Or.inl (by simp [hc, h]; omega)
      · refine Or.inr ⟨c :: s, t, by simp, ?_⟩
        simp [hs]
        omega

theorem first_slash_unique (s t s2 t2 : List Nat) (hs : 47 ∉ s) (hs2 : 47 ∉ s2)
    (h : s ++ 47 :: t = s2 ++ 47 :: t2) : s = s2 ∧ t = t2 := by
  induction s generalizing s2 with
  | nil =>
    cases s2 with
    | nil => simpa using h
    | cons c s2 =>
      simp at h
      exact absurd (by simp [h.1]) hs2
  | cons c s ih =>
    cases s2 with
    | nil =>
      simp at h
      exact absurd (by simp [h.1]) hs
    | cons c2 s2 =>
      simp at h
      obtain ⟨rfl, h2⟩ := h
      have := ih s2 (fun m => hs (List.mem_cons_of_mem _ m))
        (fun m => hs2 (List.mem_cons_of_mem _ m)) h2
      simp [this.1, this.2]

theorem splitOn_of_not_mem (s : List Nat) (h : 47 ∉ s) : s.splitOn 47 = [s] := by
  unfold List.splitOn
  apply List.splitOnP_eq_single
  intro x hx
  simp
  rintro rfl
  exact h hx

theorem splitOn_append_slash (s t : List Nat) (h : 47 ∉ s) :
    (s ++ 47 :: t).splitOn 47 = s :: t.splitOn 47 := by
  unfold List.splitOn
  apply List.splitOnP_first
  · intro x hx
    simp
    rintro rfl
    exact h hx
  · simp

theorem splitOn_ne_nil (t : List Nat) : t.splitOn 47 ≠ [] := by
  unfold List.splitOn
  exact List.splitOnP_ne_nil _ _

theorem forall₂_single_iff (R : List Nat → List Nat → Prop) (a b : List Nat) :
    List.Forall₂ R [a] [b] ↔ R a b := by
  simp

theorem forall₂_single_cons (R : List Nat → List Nat → Prop) (a b : List Nat)
    (l : List (List Nat)) (hl : l ≠ []) : ¬ List.Forall₂ R [a] (b :: l) := by
  intro h
  cases h with
  | cons _ h2 => cases h2; exact hl rfl

theorem forall₂_cons_single (R : List Nat → List Nat → Prop) (a b : List Nat)
    (l : List (List Nat)) (hl : l ≠ []) : ¬ List.Forall₂ R (a :: l) [b] := by
  intro h
  cases h with
  | cons _ h2 => cases h2; exact hl rfl

theorem match_topic_segments_aux (n : Nat) :
    ∀ pattern text : List Nat, pattern.length ≤ n → 42 ∉ pattern →
      (∀ s ∈ pattern.splitOn 47, s = [43] ∨ 43 ∉ s) →
      (match_topic text pattern = true ↔
        List.Forall₂ (fun ps ts => ps = [43] ∨ ps = ts)
          (pattern.splitOn 47) (text.splitOn 47)) := by
  induction n with
  | zero =>
    intro pattern text hlen _ _
    have hp : pattern = [] := List.length_eq_zero.mp (Nat.le_zero.mp hlen)
    subst hp
    rw [match_topic_nil]
    rcases first_slash text with ht | ⟨ts, tr, rfl, hts⟩
    · rw [splitOn_of_not_mem text ht, splitOn_of_not_mem [] (by simp), forall₂_single_iff]
      simp [eq_comm]
    · rw [splitOn_append_slash ts tr hts, splitOn_of_not_mem [] (by simp)]
      constructor
      · intro h
        simp at h
      · intro h
        exact absurd h (forall₂_single_cons _ _ _ _ (splitOn_ne_nil tr))
  | succ n ih =>
    intro pattern text hlen h42 hseg
    rcases first_slash pattern with hp | ⟨ps, pr, rfl, hps⟩
    · rw [splitOn_of_not_mem pattern hp] at hseg ⊢
      have hseg1 := hseg pattern (by simp)
      rcases first_slash text with ht | ⟨ts, tr, rfl, hts⟩
      · rw [splitOn_of_not_mem text ht, forall₂_single_iff]
        rcases hseg1 with rfl | h43
        · simp [match_topic_plus, skip_segment_of_not_mem text ht, match_topic]
        · have hl := match_topic_literal_append pattern [] text h42 h43
          simp only [List.append_nil, match_topic_nil] at hl
          rw [hl]
          constructor
          · rintro ⟨rest, rfl, rfl⟩
            exact Or.inr (by simp)
          · rintro (rfl | rfl)
            · exact absurd (by simp) h43
            · exact ⟨[], by simp, rfl⟩
      · rw [splitOn_append_slash ts tr hts]
        constructor
        · intro hm
          exfalso
          rcases hseg1 with rfl | h43
          · rw [match_topic_plus, skip_segment_append ts tr hts, match_topic_nil] at hm
            simp at hm
          · have hl := match_topic_literal_append pattern [] (ts ++ 47 :: tr) h42 h43
            simp only [List.append_nil, match_topic_nil] at hl
            obtain ⟨rest, e, rfl⟩ := hl.1 hm
            rw [List.append_nil] at e
            exact hp (by rw [← e]; simp)
        · intro h
          exact absurd h (forall₂_single_cons _ _ _ _ (splitOn_ne_nil tr))
    · rw [splitOn_append_slash ps pr hps] at hseg ⊢
      have hseg1 := hseg ps (by simp)
      have h42s : 42 ∉ ps := fun m => h42 (by simp [m])
      have h42r : 42 ∉ pr := fun m => h42 (by simp [m])
      have hlenr : pr.length ≤ n := by
        simp at hlen
        omega
      have hsegr : ∀ s ∈ pr.splitOn 47, s = [43] ∨ 43 ∉ s :=
        fun s hs => hseg s (List.mem_cons_of_mem _ hs)
      have hslash : match_topic text (ps ++ 47 :: pr) = true ↔
          ∃ ts tr, text = ts ++ 47 :: tr ∧ 47 ∉ ts ∧ (ps = [43] ∨ ps = ts) ∧
            match_topic tr pr = true := by
        rcases hseg1 with rfl | h43
        · rw [List.singleton_append, match_topic_plus,
            match_topic_literal _ _ 47 (by decide) (by decide)]
          constructor
          · rintro ⟨rest, e, hm⟩
            rcases first_slash text with ht | ⟨ts, tr, rfl, hts⟩
            · rw [skip_segment_of_not_mem text ht] at e
              simp at e
            · rw [skip_segment_append ts tr hts] at e
              simp at e
              subst e
              exact ⟨ts, tr, rfl, hts, Or.inl rfl, hm⟩
          · rintro ⟨ts, tr, rfl, hts, _, hm⟩
            exact ⟨tr, skip_segment_append ts tr hts, hm⟩
        · rw [match_topic_literal_append ps (47 :: pr) text h42s h43]
          constructor
          · rintro ⟨rest, rfl, hm⟩
            obtain ⟨tr, rfl, hm2⟩ :=
              (match_topic_literal _ _ 47 (by decide) (by decide)).1 hm
            exact ⟨ps, tr, rfl, hps, Or.inr rfl, hm2⟩
          · rintro ⟨ts, tr, rfl, hts, hR, hm⟩
            rcases hR with rfl | rfl
            · exact absurd (by simp) h43
            · exact ⟨47 :: tr, rfl,
                (match_topic_literal _ _ 47 (by decide) (by decide)).2 ⟨tr, rfl, hm⟩⟩
      rw [hslash]
      rcases first_slash text with ht | ⟨ts, tr, rfl, hts⟩
      · rw [splitOn_of_not_mem text ht]
        constructor
        · rintro ⟨ts, tr, rfl, _, _, _⟩
          exact absurd (by simp) ht
        · intro h
          exact absurd h (forall₂_cons_single _ _ _ _ (splitOn_ne_nil pr))
      · rw [splitOn_append_slash ts tr hts, List.forall₂_cons,
          ← ih pr tr hlenr h42r hsegr]
        constructor
        · rintro ⟨ts2, tr2, e, hts2, hR, hm⟩
          obtain ⟨rfl, rfl⟩ := first_slash_unique ts tr ts2 tr2 hts hts2 e
          exact ⟨hR, hm⟩
        · rintro ⟨hR, hm⟩
          exact ⟨ts, tr, rfl, hts, hR, hm⟩

/-- C3: for a pattern without `*` whose segments are `+` or free of `+`, the
matcher accepts exactly the texts that split on `/` into as many segments as
the pattern, each pattern segment being `+` or equal to the text segment at the
same position. In particular a pattern with neither `+` nor `*` accepts exactly
the text equal to it. -/
theorem match_topic_plus_one_segment (text pattern : List Nat) (hstar : 42 ∉ pattern)
    (hseg : ∀ s ∈ pattern.splitOn 47, s = [43] ∨ 43 ∉ s) :
    (match_topic text pattern = true ↔
      List.Forall₂ (fun ps ts => ps = [43] ∨ ps = ts)
        (pattern.splitOn 47) (text.splitOn 47)) ∧
    (43 ∉ pattern → (match_topic text pattern = true ↔ text = pattern)) := by
  refine ⟨match_topic_segments_aux pattern.length pattern text (Nat.le_refl _) hstar hseg,
    fun h43 => ?_⟩
  have h := match_topic_literal_append pattern [] text hstar h43
  simp only [List.append_nil, match_topic_nil] at h
  rw [h]
  constructor
  · rintro ⟨rest, rfl, rfl⟩
    simp
  · rintro rfl
    exact ⟨[], by simp, rfl⟩

theorem match_topic_plus_one_segment_witness :
    42 ∉ bytes "a/+/c" ∧
    (∀ s ∈ (bytes "a/+/c").splitOn 47, s = [43] ∨ 43 ∉ s) ∧
    (bytes "a/+/c").splitOn 47 = [bytes "a", bytes "+", bytes "c"] ∧
    (bytes "a//c").splitOn 47 = [bytes "a", [], bytes "c"] ∧
    (match_topic (bytes "a//c") (bytes "a/+/c") = true ↔
      List.Forall₂ (fun ps ts => ps = [43] ∨ ps = ts)
        ((bytes "a/+/c").splitOn 47) ((bytes "a//c").splitOn 47)) :=
  ⟨by decide, by decide, by decide, by decide,
    (match_topic_plus_one_segment (bytes "a//c") (bytes "a/+/c") (by decide) (by decide)).1⟩

/-! ## Retained message store: theorems -/

theorem strcmp_eq_zero (a b : List Nat) : strcmp a b = 0 ↔ a = b := by
  induction a generalizing b with
  | nil => cases b <;> simp [strcmp]
  | cons x a ih =>
    cases b with
    | nil => simp [strcmp]
    | cons y b =>
      simp only [strcmp]
      split_ifs with h1 h2
      · simp; omega
      · simp; omega
      · have : x = y := by omega
        simp [ih, this]

theorem strcmp_self (a : List Nat) : strcmp a a = 0 := (strcmp_eq_zero a a).2 rfl

theorem strcmp_lt_trans (a b c : List Nat) (h1 : strcmp a b < 0) (h2 : strcmp b c < 0) :
    strcmp a c < 0 := by
  induction a generalizing b c with
  | nil =>
    cases c with
    | nil => cases b <;> simp [strcmp] at h1 h2
    | cons z c => simp [strcmp]
  | cons x a ih =>
    cases b with
    | nil => simp [strcmp] at h1
    | cons y b =>
      cases c with
      | nil => simp [strcmp] at h2
      | cons z c =>
        simp only [strcmp] at h1 h2 ⊢
        split_ifs at h1 h2 ⊢ <;> first | omega | exact ih b c h1 h2

theorem strcmp_swap (a b : List Nat) (h1 : ¬ strcmp a b < 0) (h2 : ¬ strcmp a b = 0) :
    strcmp b a < 0 := by
  induction a generalizing b with
  | nil => cases b <;> simp [strcmp] at h1 h2
  | cons x a ih =>
    cases b with
    | nil => simp [strcmp]
    | cons y b =>
      simp only [strcmp] at h1 h2 ⊢
      split_ifs at h1 h2 ⊢ <;> first | omega | exact ih b h1 h2

theorem strcmp_lt_irrefl (a b : List Nat) (h : strcmp a b < 0) : a ≠ b := by
  rintro rfl
  rw [strcmp_self] at h
  omega

/-- The sign of `strcmp` is the lexicographic order of the byte lists. -/
theorem strcmp_lt_iff_lex (a b : List Nat) :
    strcmp a b < 0 ↔ List.Lex (fun x y : Nat => x < y) a b := by
  induction a generalizing b with
  | nil =>
    cases b with
    | nil => simp [strcmp]
    | cons y b => simp [strcmp, List.Lex.nil]
  | cons x a ih =>
    cases b with
    | nil => simp [strcmp]
    | cons y b =>
      simp only [strcmp]
      split_ifs with h1 h2
      · simp [List.Lex.rel h1]
      · constructor
        · intro h
          omega
        · intro h
          cases h with
          | cons h => omega
          | rel h => omega
      · have : x = y := by omega
        subst this
        rw [List.Lex.cons_iff]
        exact ih b

theorem mem_store_message (s : List message) (t p : List Nat) (m : message)
    (h : m ∈ store_message s t p) : m.topic = t ∨ ∃ m2 ∈ s, m2.topic = m.topic := by
  induction s with
  | nil =>
    simp [store_message] at h
    exact Or.inl (by rw [h])
  | cons this rest ih =>
    simp only [store_message] at h
    split_ifs at h with h1 h2 h3
    · rcases List.mem_cons.1 h with rfl | h
      · exact Or.inr ⟨m, by simp, rfl⟩
      · rcases ih h with e | ⟨m2, hm2, e⟩
        · exact Or.inl e
        · exact Or.inr ⟨m2, List.mem_cons_of_mem _ hm2, e⟩
    · rcases List.mem_cons.1 h with rfl | h
      · exact Or.inr ⟨this, by simp, rfl⟩
      · exact Or.inr ⟨m, List.mem_cons_of_mem _ h, rfl⟩
    · rcases List.mem_cons.1 h with rfl | h
      · exact Or.inr ⟨this, by simp, rfl⟩
      · exact Or.inr ⟨m, List.mem_cons_of_mem _ h, rfl⟩
    · rcases List.mem_cons.1 h with rfl | h
      · exact Or.inl rfl
      · exact Or.inr ⟨m, h, rfl⟩

theorem store_message_ordered (s : List message) (t p : List Nat) (h : store_ordered s) :
    store_ordered (store_message s t p) := by
  unfold store_ordered at h ⊢
  induction s with
  | nil => simp [store_message]
  | cons this rest ih =>
    obtain ⟨hhead, hrest⟩ := List.pairwise_cons.1 h
    simp only [store_message]
    split_ifs with h1 h2 h3
    · refine List.pairwise_cons.2 ⟨?_, ih hrest⟩
      intro m hm
      rcases mem_store_message rest t p m hm with e | ⟨m2, hm2, e⟩
      · rw [e]; exact h1
      · rw [← e]; exact hhead m2 hm2
    · exact List.pairwise_cons.2 ⟨hhead, hrest⟩
    · exact List.pairwise_cons.2 ⟨hhead, hrest⟩
    · have hlt : strcmp t this.topic < 0 := strcmp_swap this.topic t h1 h2
      refine List.pairwise_cons.2 ⟨?_, h⟩
      intro m hm
      rcases List.mem_cons.1 hm with rfl | hm
      · exact hlt
      · exact strcmp_lt_trans _ _ _ hlt (hhead m hm)

theorem store_after_append (ws : List (List Nat × List Nat)) (t p : List Nat) :
    store_after (ws ++ [(t, p)]) = store_message (store_after ws) t p := by
  simp [store_after, List.foldl_append]

theorem store_after_ordered (writes : List (List Nat × List Nat)) :
    store_ordered (store_after writes) := by
  induction writes using List.reverseRecOn with
  | nil => simp [store_after, store_ordered]
  | append_singleton ws w ih =>
    obtain ⟨t, p⟩ := w
    rw [store_after_append]
    exact store_message_ordered _ t p ih

theorem store_after_topics (writes : List (List Nat × List Nat)) (m : message)
    (h : m ∈ store_after writes) : m.topic ∈ writes.map Prod.fst := by
  induction writes using List.reverseRecOn generalizing m with
  | nil => simp [store_after] at h
  | append_singleton ws w ih =>
    obtain ⟨t, p⟩ := w
    rw [store_after_append] at h
    rcases mem_store_message _ t p m h with e | ⟨m2, hm2, e⟩
    · simp [e]
    · have := ih m2 hm2
      rw [e] at this
      simp only [List.map_append, List.mem_append]
      exact Or.inl this

theorem find_stored_message_none (s : List message) (t : List Nat)
    (h : ∀ m ∈ s, m.topic ≠ t) : find_stored_message s t = none := by
  induction s with
  | nil => rfl
  | cons this rest ih =>
    have h1 : strcmp this.topic t ≠ 0 := fun e =>
      h this (by simp) ((strcmp_eq_zero _ _).1 e)
    simp only [find_stored_message, h1, ne_eq, not_false_eq_true, if_true]
    exact ih (fun m hm => h m (List.mem_cons_of_mem _ hm))

theorem find_store_message_same (s : List message) (t p : List Nat) :
    ∃ m, find_stored_message (store_message s t p) t = some m ∧
      m.topic = t ∧ m.payload = p := by
  induction s with
  | nil =>
    exact ⟨{ size := p.length, topic := t, payload := p },
      by simp [store_message, find_stored_message, strcmp_self], rfl, rfl⟩
  | cons this rest ih =>
    simp only [store_message]
    split_ifs with h1 h2 h3
    · have hne : strcmp this.topic t ≠ 0 := by omega
      simpa [find_stored_message, hne] using ih
    · exact ⟨{ this with size := p.length, payload := p },
        by simp [find_stored_message, h2], (strcmp_eq_zero _ _).1 h2, rfl⟩
    · exact ⟨{ this with payload := p },
        by simp [find_stored_message, h2], (strcmp_eq_zero _ _).1 h2, rfl⟩
    · exact ⟨{ size := p.length, topic := t, payload := p },
        by simp [find_stored_message, strcmp_self], rfl, rfl⟩

theorem find_store_message_other (s : List message) (t p u : List Nat) (h : u ≠ t) :
    find_stored_message (store_message s t p) u = find_stored_message s u := by
  have htu : strcmp t u ≠ 0 := fun e => h ((strcmp_eq_zero _ _).1 e).symm
  induction s with
  | nil => simp [store_message, find_stored_message, htu]
  | cons this rest ih =>
    simp only [store_message]
    split_ifs with h1 h2 h3
    · simp [find_stored_message, ih]
    · have e := (strcmp_eq_zero _ _).1 h2
      simp [find_stored_message, e, htu]
    · have e := (strcmp_eq_zero _ _).1 h2
      simp [find_stored_message, e, htu]
    · simp [find_stored_message, htu]

/-- C5: on every store built by `store_message` calls, a write to `t` makes
`find_stored_message t` return an entry with exactly the written payload,
leaves the result for every other topic as it was, and a topic that was never
written is not found. -/
theorem store_read_your_write (writes : List (List Nat × List Nat)) (t p u : List Nat) :
    (∃ m, find_stored_message (store_message (store_after writes) t p) t = some m ∧
      m.payload = p) ∧
    (u ≠ t → find_stored_message (store_message (store_after writes) t p) u =
      find_stored_message (store_after writes) u) ∧
    (t ∉ writes.map Prod.fst → find_stored_message (store_after writes) t = none) := by
  refine ⟨?_, find_store_message_other _ t p u, fun h => ?_⟩
  · obtain ⟨m, hm, _, hp⟩ := find_store_message_same (store_after writes) t p
    exact ⟨m, hm, hp⟩
  · apply find_stored_message_none
    intro m hm e
    exact h (e ▸ store_after_topics writes m hm)

theorem store_read_your_write_witness :
    (∃ m, find_stored_message
        (store_message (store_after [(bytes "t", bytes "long"), (bytes "v", bytes "x")])
          (bytes "t") (bytes "p")) (bytes "t") = some m ∧ m.payload = bytes "p") ∧
    find_stored_message
        (store_message (store_after [(bytes "t", bytes "long"), (bytes "v", bytes "x")])
          (bytes "t") (bytes "p")) (bytes "v") =
      some { size := 1, topic := bytes "v", payload := bytes "x" } ∧
    find_stored_message (store_after [(bytes "t", bytes "long"), (bytes "v", bytes "x")])
      (bytes "u") = none := by
  have h := store_read_your_write [(bytes "t", bytes "long"), (bytes "v", bytes "x")]
    (bytes "t") (bytes "p") (bytes "v")
  have h2 := store_read_your_write [(bytes "t", bytes "long"), (bytes "v", bytes "x")]
    (bytes "u") (bytes "p") (bytes "v")
  exact ⟨h.1, (h.2.1 (by decide)).trans (by decide), h2.2.2 (by decide)⟩

/-- C6: in every store built by `store_message` calls the topics are strictly
ascending under `strcmp` (the byte-wise lexicographic order), so no topic occurs
twice, and `store_message` keeps any ordered store ordered. -/
theorem store_order_invariant (writes : List (List Nat × List Nat)) (s : List message)
    (t p : List Nat) :
    (∀ i j (hij : i < j) (hj : j < (store_after writes).length),
      strcmp ((store_after writes)[i]).topic ((store_after writes)[j]).topic < 0 ∧
      List.Lex (fun x y : Nat => x < y)
        ((store_after writes)[i]).topic ((store_after writes)[j]).topic) ∧
    ((store_after writes).map message.topic).Nodup ∧
    (store_ordered s → store_ordered (store_message s t p)) := by
  have hord := store_after_ordered writes
  refine ⟨?_, ?_, store_message_ordered s t p⟩
  · intro i j hij hj
    have h := (List.pairwise_iff_getElem.1 hord) i j (by omega) hj hij
    exact ⟨h, (strcmp_lt_iff_lex _ _).1 h⟩
  · unfold store_ordered at hord
    unfold List.Nodup
    rw [List.pairwise_map]
    exact hord.imp (fun h => strcmp_lt_irrefl _ _ h)

theorem store_order_invariant_witness :
    store_ordered [{ size := 1, topic := bytes "a", payload := bytes "x" },
      { size := 1, topic := bytes "c", payload := bytes "y" }] ∧
    store_ordered (store_message [{ size := 1, topic := bytes "a", payload := bytes "x" },
      { size := 1, topic := bytes "c", payload := bytes "y" }] (bytes "b") (bytes "z")) := by
  have h0 : store_ordered [{ size := 1, topic := bytes "a", payload := bytes "x" },
      { size := 1, topic := bytes "c", payload := bytes "y" }] := by
    unfold store_ordered
    decide
  exact ⟨h0, (store_order_invariant [] _ (bytes "b") (bytes "z")).2.2 h0⟩

/-! ## Dispatcher: theorems -/

/-- The scan of `send_message` sends once when some pattern matches and nothing
otherwise. -/
theorem send_message_loop_eq (c : client) (t p : List Nat) (subs : List subscribe) :
    send_message_loop c t p subs =
      if ∃ s ∈ subs, match_topic t s.topic = true then [send_packet c t p] else [] := by
  induction subs with
  | nil => simp [send_message_loop]
  | cons this rest ih =>
    by_cases h : match_topic t this.topic = true
    · simp [send_message_loop, h]
    · simp only [send_message_loop, h, if_false, ih]
      simp [h]

theorem send_message_eq (c : client) (t p : List Nat) :
    send_message c t p =
      if ∃ s ∈ c.subscribe_ptr, match_topic t s.topic = true then [send_packet c t p]
      else [] :=
  send_message_loop_eq c t p c.subscribe_ptr

theorem send_message_sk (c : client) (t p : List Nat) (q : packet)
    (h : q ∈ send_message c t p) : q.sk = c.sk := by
  rw [send_message_eq] at h
  split_ifs at h
  · simp at h
    rw [h]
    rfl
  · simp at h

theorem dispatch_loop_sk (o : Nat) (t p : List Nat) (pos : Nat) (clients : List client)
    (q : packet) (h : q ∈ dispatch_loop o t p pos clients) :
    ∃ c ∈ clients, q.sk = c.sk := by
  induction clients generalizing pos with
  | nil => simp [dispatch_loop] at h
  | cons this rest ih =>
    simp only [dispatch_loop, List.mem_append] at h
    rcases h with h | h
    · split_ifs at h
      · exact ⟨this, by simp, send_message_sk this t p q h⟩
      · simp at h
    · obtain ⟨c, hc, e⟩ := ih (pos + 1) h
      exact ⟨c, List.mem_cons_of_mem _ hc, e⟩

theorem filter_sk_eq_nil (l : List packet) (sk : Int) (h : ∀ q ∈ l, q.sk ≠ sk) :
    l.filter (fun q => decide (q.sk = sk)) = [] := by
  rw [List.filter_eq_nil_iff]
  intro q hq
  simpa using h q hq

theorem dispatch_loop_filter (o : Nat) (t p : List Nat) (clients : List client) :
    ∀ (pos i : Nat) (c : client), clients[i]? = some c → (clients.map client.sk).Nodup →
      (dispatch_loop o t p pos clients).filter (fun q => decide (q.sk = c.sk)) =
        if pos + i ≠ o ∧ ∃ s ∈ c.subscribe_ptr, match_topic t s.topic = true
        then [send_packet c t p] else [] := by
  induction clients with
  | nil => intro pos i c hi; simp at hi
  | cons this rest ih =>
    intro pos i c hi hnd
    rw [List.map_cons, List.nodup_cons] at hnd
    obtain ⟨hnotin, hnd2⟩ := hnd
    simp only [dispatch_loop, List.filter_append]
    cases i with
    | zero =>
      simp only [List.getElem?_cons_zero, Option.some.injEq] at hi
      subst hi
      have h2 : (dispatch_loop o t p (pos + 1) rest).filter
          (fun q => decide (q.sk = this.sk)) = [] := by
        apply filter_sk_eq_nil
        intro q hq e
        obtain ⟨c, hc, e2⟩ := dispatch_loop_sk o t p (pos + 1) rest q hq
        exact hnotin (List.mem_map.2 ⟨c, hc, by rw [← e2, e]⟩)
      simp only [h2, List.append_nil, Nat.add_zero]
      rw [send_message_eq]
      by_cases ho : pos = o
      · simp [ho]
      · by_cases hm : ∃ s ∈ this.subscribe_ptr, match_topic t s.topic = true
        · simp only [ho, hm, ne_eq, not_false_eq_true, if_true, and_self]
          simp [send_packet]
        · simp [ho, hm]
    | succ k =>
      simp only [List.getElem?_cons_succ] at hi
      have hc : c ∈ rest := List.getElem?_mem hi
      have hne : this.sk ≠ c.sk := fun e =>
        hnotin (List.mem_map.2 ⟨c, hc, e.symm⟩)
      have h1 : (if pos ≠ o then send_message this t p else []).filter
          (fun q => decide (q.sk = c.sk)) = [] := by
        apply filter_sk_eq_nil
        intro q hq e
        split_ifs at hq
        · exact hne ((send_message_sk this t p q hq).symm.trans e)
        · simp at hq
      simp only [h1, List.nil_append]
      rw [ih (pos + 1) k c hi hnd2]
      have e : pos + 1 + k = pos + (k + 1) := by omega
      rw [e]

theorem dispatch_loop_eq (o : Nat) (t p : List Nat) (clients : List client) (pos : Nat) :
    dispatch_loop o t p pos clients =
      ((clients.enumFrom pos).filter (fun ic => decide (ic.1 ≠ o) &&
        ic.2.subscribe_ptr.any (fun s => match_topic t s.topic))).map
          (fun ic => send_packet ic.2 t p) := by
  induction clients generalizing pos with
  | nil => simp [dispatch_loop]
  | cons this rest ih =>
    simp only [dispatch_loop, List.enumFrom_cons, List.filter_cons, ih (pos + 1),
      send_message_eq]
    by_cases ho : pos = o
    · simp [ho]
    · by_cases hm : ∃ s ∈ this.subscribe_ptr, match_topic t s.topic = true
      · have hany : this.subscribe_ptr.any (fun s => match_topic t s.topic) = true := by
          simpa using hm
        simp [ho, hm, hany]
      · have hany : this.subscribe_ptr.any (fun s => match_topic t s.topic) = false := by
          simpa using hm
        simp [ho, hm, hany]

/-- C1: the packets of `dispatch_message` are, in registry order, one packet
(the one `send_packet` builds for the topic and payload) for each registered
client that is not the originating one and has at least one pattern matching
the topic, and nothing else. With distinct descriptors in the registry, the
packets addressed to such a client are therefore exactly that one packet, and
there is none for a client without a matching pattern or for the originating
client; no packet goes to a descriptor outside the registry. -/
theorem dispatch_message_exactly_once (clients : List client) (o : Nat) (t p : List Nat) :
    dispatch_message clients o t p =
      ((clients.enum.filter (fun ic => decide (ic.1 ≠ o) &&
        ic.2.subscribe_ptr.any (fun s => match_topic t s.topic))).map
          (fun ic => send_packet ic.2 t p)) ∧
    ((clients.map client.sk).Nodup → ∀ i c, clients[i]? = some c →
      (i ≠ o → (∃ s ∈ c.subscribe_ptr, match_topic t s.topic = true) →
        (dispatch_message clients o t p).filter (fun q => decide (q.sk = c.sk)) =
          [send_packet c t p]) ∧
      ((∀ s ∈ c.subscribe_ptr, match_topic t s.topic = false) →
        (dispatch_message clients o t p).filter (fun q => decide (q.sk = c.sk)) = []) ∧
      (i = o →
        (dispatch_message clients o t p).filter (fun q => decide (q.sk = c.sk)) = [])) ∧
    (∀ q ∈ dispatch_message clients o t p, ∃ c ∈ clients, q.sk = c.sk) := by
  refine ⟨dispatch_loop_eq o t p clients 0, ?_, ?_⟩
  · intro hsk i c hc
    have h := dispatch_loop_filter o t p clients 0 i c hc hsk
    simp only [Nat.zero_add] at h
    unfold dispatch_message
    rw [h]
    refine ⟨fun hi hm => by simp [hi, hm], fun hm => ?_, fun hi => by simp [hi]⟩
    have : ¬ ∃ s ∈ c.subscribe_ptr, match_topic t s.topic = true := by
      rintro ⟨s, hs, e⟩
      rw [hm s hs] at e
      exact Bool.false_ne_true e
    simp [this]
  · intro q hq
    exact dispatch_loop_sk o t p 0 clients q hq

theorem dispatch_message_exactly_once_witness :
    (dispatch_message
      [{ sk := 3, subscribe_ptr := [⟨bytes "a/+"⟩, ⟨bytes "a/b"⟩] },
       { sk := 4, subscribe_ptr := [⟨bytes "a/b"⟩] },
       { sk := 5, subscribe_ptr := [⟨bytes "x"⟩] }] 1 (bytes "a/b") (bytes "hi")).filter
        (fun q => decide (q.sk = 3)) =
      [{ sk := 3, data := bytes "a/b\nhi" ++ [0] }] ∧
    dispatch_message
      [{ sk := 3, subscribe_ptr := [⟨bytes "a/+"⟩, ⟨bytes "a/b"⟩] },
       { sk := 4, subscribe_ptr := [⟨bytes "a/b"⟩] },
       { sk := 5, subscribe_ptr := [⟨bytes "x"⟩] }] 1 (bytes "a/b") (bytes "hi") =
      [{ sk := 3, data := bytes "a/b\nhi" ++ [0] }] := by
  have h := ((dispatch_message_exactly_once
    [{ sk := 3, subscribe_ptr := [⟨bytes "a/+"⟩, ⟨bytes "a/b"⟩] },
     { sk := 4, subscribe_ptr := [⟨bytes "a/b"⟩] },
     { sk := 5, subscribe_ptr := [⟨bytes "x"⟩] }] 1 (bytes "a/b") (bytes "hi")).2.1
    (by decide) 0 { sk := 3, subscribe_ptr := [⟨bytes "a/+"⟩, ⟨bytes "a/b"⟩] }
    (by decide)).1 (by decide) (by decide)
  exact ⟨h.trans (by decide), by decide⟩

/-! ## Command handlers: theorems -/

theorem send_stored_messages_eq (c : client) (topic : List Nat) (store : List message) :
    send_stored_messages c topic store =
      (store.filter (fun m => decide (m.payload ≠ []) && match_topic m.topic topic)).map
        (fun m => send_packet c m.topic m.payload) := by
  induction store with
  | nil => rfl
  | cons this rest ih =>
    by_cases h1 : this.payload = []
    · simp [send_stored_messages, List.filter_cons, h1, ih]
    · by_cases h2 : match_topic this.topic topic = true
      · simp [send_stored_messages, List.filter_cons, h1, h2, ih]
      · simp [send_stored_messages, List.filter_cons, h1, h2, ih]

/-- C7: `process_subscribe` sends to the subscribing client, in store order, one
packet (topic, payload) for each retained entry whose payload is not empty and
whose topic matches the pattern, and nothing else; every packet goes to the
subscriber's descriptor, the store is unchanged, the other client records are
unchanged and the pattern is in the subscriber's list afterwards. -/
theorem process_subscribe_replay (b : broker) (client_ptr : Nat) (c : client)
    (s : List Nat) (hc : b.first_client_ptr[client_ptr]? = some c) :
    (process_subscribe b client_ptr s).2 =
      (b.first_message_ptr.filter
        (fun m => decide (m.payload ≠ []) && match_topic m.topic s)).map
          (fun m => send_packet c m.topic m.payload) ∧
    (∀ q ∈ (process_subscribe b client_ptr s).2, q.sk = c.sk) ∧
    (process_subscribe b client_ptr s).1.first_message_ptr = b.first_message_ptr ∧
    (∃ c1, (process_subscribe b client_ptr s).1.first_client_ptr[client_ptr]? = some c1 ∧
      c1.sk = c.sk ∧ { topic := s } ∈ c1.subscribe_ptr) ∧
    (∀ j, j ≠ client_ptr →
      (process_subscribe b client_ptr s).1.first_client_ptr[j]? = b.first_client_ptr[j]?) := by
  have hlt : client_ptr < b.first_client_ptr.length := by
    rcases Nat.lt_or_ge client_ptr b.first_client_ptr.length with h | h
    · exact h
    · rw [List.getElem?_eq_none h] at hc
      cases hc
  have hout : (process_subscribe b client_ptr s).2 =
      (b.first_message_ptr.filter
        (fun m => decide (m.payload ≠ []) && match_topic m.topic s)).map
          (fun m => send_packet c m.topic m.payload) := by
    simp only [process_subscribe, hc, send_stored_messages_eq]
    rfl
  refine ⟨hout, ?_, ?_, ?_, ?_⟩
  · intro q hq
    rw [hout] at hq
    obtain ⟨m, _, rfl⟩ := List.mem_map.1 hq
    rfl
  · simp only [process_subscribe, hc]
  · refine ⟨{ c with subscribe_ptr := { topic := s } :: c.subscribe_ptr }, ?_, rfl, ?_⟩
    · simp only [process_subscribe, hc]
      rw [List.getElem?_set_self hlt]
    · simp
  · intro j hj
    simp only [process_subscribe, hc]
    rw [List.getElem?_set_ne (fun e => hj e.symm)]

theorem process_subscribe_replay_witness :
    (process_subscribe
      { first_message_ptr := [{ size := 2, topic := bytes "x/1", payload := bytes "v1" },
          { size := 2, topic := bytes "x/2", payload := [] },
          { size := 1, topic := bytes "y", payload := bytes "w" }],
        first_client_ptr := [{ sk := 7, subscribe_ptr := [] }] } 0 (bytes "x/+")).2 =
      [{ sk := 7, data := bytes "x/1\nv1" ++ [0] }] := by
  have h := (process_subscribe_replay
    { first_message_ptr := [{ size := 2, topic := bytes "x/1", payload := bytes "v1" },
        { size := 2, topic := bytes "x/2", payload := [] },
        { size := 1, topic := bytes "y", payload := bytes "w" }],
      first_client_ptr := [{ sk := 7, subscribe_ptr := [] }] } 0
    { sk := 7, subscribe_ptr := [] } (bytes "x/+") (by decide)).1
  exact h.trans (by decide)

theorem list_loop_spec (store : List message) :
    ∀ acc : List Nat, ∃ k, k ≤ store.length ∧
      list_loop acc store =
        acc ++ ((store.take k).map (fun m => m.topic ++ [10])).flatten ∧
      (acc.length ≤ 8184 → (list_loop acc store).length ≤ 8184) ∧
      (∀ m, store[k]? = some m → 8184 ≤ (list_loop acc store).length + m.topic.length) ∧
      (acc.length + (store.map (fun m => m.topic.length + 1)).sum ≤ 8184 →
        k = store.length) := by
  induction store with
  | nil =>
    intro acc
    exact ⟨0, by simp, by simp [list_loop], by simp [list_loop], by simp, by simp⟩
  | cons this rest ih =>
    intro acc
    by_cases h : acc.length + this.topic.length < XBUS_MAX_SIZE - 8
    · obtain ⟨k, hk, heq, hlen, hstop, hall⟩ := ih (acc ++ this.topic ++ [10])
      have hstep : list_loop acc (this :: rest) = list_loop (acc ++ this.topic ++ [10]) rest := by
        simp only [list_loop, h, if_true]
      have h2 : acc.length + this.topic.length < 8184 := by
        simpa [XBUS_MAX_SIZE] using h
      refine ⟨k + 1, by simp; omega, ?_, ?_, ?_, ?_⟩
      · rw [hstep, heq]
        simp
      · intro _
        rw [hstep]
        apply hlen
        simp
        omega
      · intro m hm
        rw [hstep]
        exact hstop m (by simpa using hm)
      · intro hsum
        have hl2 : (acc ++ this.topic ++ [10]).length =
            acc.length + this.topic.length + 1 := by
          simp only [List.length_append, List.length_singleton]
        simp only [List.map_cons, List.sum_cons] at hsum
        have := hall (by rw [hl2]; omega)
        simp [this]
    · have hstep : list_loop acc (this :: rest) = acc := by
        simp only [list_loop, h, if_false]
      have h2 : 8184 ≤ acc.length + this.topic.length := by
        simp only [XBUS_MAX_SIZE] at h
        omega
      refine ⟨0, by simp, by simp [hstep], fun ha => by rw [hstep]; exact ha, ?_, ?_⟩
      · intro m hm
        simp only [List.getElem?_cons_zero, Option.some.injEq] at hm
        subst hm
        rw [hstep]
        exact h2
      · intro hsum
        simp only [List.map_cons, List.sum_cons] at hsum
        omega

/-- C9: `process_list` sends one packet, to the requesting client, whose text is
`%list`, a line feed and a payload that is the concatenation of the topics of
an initial part of the store, in store order, each followed by one line feed.
The payload has at most 8184 bytes, so the packet with its terminator has at
most 8192 bytes and `send_packet` cuts nothing; the scan stops only at the end
of the store or at the first topic that does not fit, and when all topics fit
(their lengths plus one line feed each sum to at most 8184) all are listed. The
state is unchanged. -/
theorem process_list_truncation (b : broker) (client_ptr : Nat) (c : client)
    (hc : b.first_client_ptr[client_ptr]? = some c) :
    ∃ k payload, k ≤ b.first_message_ptr.length ∧
      payload = ((b.first_message_ptr.take k).map (fun m => m.topic ++ [10])).flatten ∧
      process_list b client_ptr =
        (b, [{ sk := c.sk, data := bytes "%list" ++ [10] ++ payload ++ [0] }]) ∧
      payload.length ≤ 8184 ∧
      (bytes "%list" ++ [10] ++ payload ++ [0]).length ≤ 8192 ∧
      (∀ m, b.first_message_ptr[k]? = some m → 8184 ≤ payload.length + m.topic.length) ∧
      ((b.first_message_ptr.map (fun m => m.topic.length + 1)).sum ≤ 8184 →
        k = b.first_message_ptr.length) := by
  obtain ⟨k, hk, heq, hlen, hstop, hall⟩ := list_loop_spec b.first_message_ptr []
  have hl : (list_loop [] b.first_message_ptr).length ≤ 8184 := hlen (by simp)
  have h5 : (bytes "%list").length = 5 := by decide
  refine ⟨k, list_loop [] b.first_message_ptr, hk, by simpa using heq, ?_, hl, ?_, hstop,
    fun h => hall (by simpa using h)⟩
  · simp only [process_list, hc, send_packet]
    have htake : (bytes "%list" ++ 10 :: list_loop [] b.first_message_ptr).take
        (XBUS_MAX_SIZE - 1) = bytes "%list" ++ 10 :: list_loop [] b.first_message_ptr := by
      apply List.take_of_length_le
      simp only [List.length_append, List.length_cons, h5, XBUS_MAX_SIZE]
      omega
    rw [htake]
    simp
  · simp only [List.length_append, List.length_cons, List.length_nil, h5]
    omega

theorem process_list_truncation_witness :
    (process_list
      { first_message_ptr := [{ size := 1, topic := bytes "a", payload := bytes "x" },
          { size := 0, topic := bytes "b/c", payload := [] }],
        first_client_ptr := [{ sk := 7, subscribe_ptr := [] }] } 0).2 =
      [{ sk := 7, data := bytes "%list\na\nb/c\n" ++ [0] }] := by
  obtain ⟨k, payload, hk, hp, hrun, _, _, _, hall⟩ := process_list_truncation
    { first_message_ptr := [{ size := 1, topic := bytes "a", payload := bytes "x" },
        { size := 0, topic := bytes "b/c", payload := [] }],
      first_client_ptr := [{ sk := 7, subscribe_ptr := [] }] } 0
    { sk := 7, subscribe_ptr := [] } (by decide)
  have hk2 : k = 2 := hall (by decide)
  subst hk2
  rw [hrun, hp]
  decide

/-- C10: `process_write` sends the packets `process_publish` sends, each built
from the new payload for a registered client, keeps the client registry, and
leaves as store the result of `store_message` on the previous store;
`process_publish` changes neither the store nor the registry. -/
theorem process_write_publish_then_store (b : broker) (o : Nat) (t p : List Nat) :
    (process_write b o t p).2 = (process_publish b o t p).2 ∧
    (∀ q ∈ (process_write b o t p).2, ∃ c ∈ b.first_client_ptr, q = send_packet c t p) ∧
    (process_write b o t p).1.first_client_ptr = b.first_client_ptr ∧
    (process_write b o t p).1.first_message_ptr = store_message b.first_message_ptr t p ∧
    (process_publish b o t p).1 = b := by
  refine ⟨rfl, ?_, rfl, rfl, rfl⟩
  intro q hq
  simp only [process_write, dispatch_message, dispatch_loop_eq] at hq
  obtain ⟨ic, hic, rfl⟩ := List.mem_map.1 hq
  exact ⟨ic.2, List.snd_mem_of_mem_enumFrom (List.mem_filter.1 hic).1, rfl⟩

/-! ## Command router: theorems -/

/-- C8 (the code at the failing input): a request whose topic is empty is not
dropped when a payload follows. The line feed that ends the empty topic is
skipped as a leading delimiter by the second `strtok`, so the first line of the
payload becomes the topic: the frame of `xbus_write("", "payload")` is
dispatched and stored under the topic `payload`, and `SUBSCRIBE \nx` subscribes
the sender to `x`. A frame with nothing after the command is dropped. -/
theorem receive_packet_empty_topic_not_dropped :
    receive_packet
      { first_message_ptr := [],
        first_client_ptr := [{ sk := 3, subscribe_ptr := [] },
          { sk := 4, subscribe_ptr := [⟨bytes "*"⟩] }] } 0
      (bytes "WRITE \npayload" ++ [0]) =
      Prod.mk
        { first_message_ptr := [{ size := 0, topic := bytes "payload", payload := [] }],
          first_client_ptr := [{ sk := 3, subscribe_ptr := [] },
            { sk := 4, subscribe_ptr := [⟨bytes "*"⟩] }] }
        [{ sk := 4, data := bytes "payload\n" ++ [0] }] ∧
    receive_packet
      { first_message_ptr := [],
        first_client_ptr := [{ sk := 3, subscribe_ptr := [] },
          { sk := 4, subscribe_ptr := [⟨bytes "*"⟩] }] } 0
      (bytes "WRITE \npayload") =
      Prod.mk
        { first_message_ptr := [{ size := 0, topic := bytes "payload", payload := [] }],
          first_client_ptr := [{ sk := 3, subscribe_ptr := [] },
            { sk := 4, subscribe_ptr := [⟨bytes "*"⟩] }] }
        [{ sk := 4, data := bytes "payload\n" ++ [0] }] ∧
    receive_packet
      { first_message_ptr := [],
        first_client_ptr := [{ sk := 3, subscribe_ptr := [] }] } 0 (bytes "SUBSCRIBE \nx") =
      Prod.mk
        { first_message_ptr := [],
          first_client_ptr := [{ sk := 3, subscribe_ptr := [⟨bytes "x"⟩] }] } [] ∧
    receive_packet
      { first_message_ptr := [],
        first_client_ptr := [{ sk := 3, subscribe_ptr := [] }] } 0 (bytes "PUBLISH") =
      Prod.mk
        { first_message_ptr := [],
          first_client_ptr := [{ sk := 3, subscribe_ptr := [] }] } [] := by
  decide

/-! ## READ, UNSUBSCRIBE, SUBSCRIBE: theorems -/

theorem find_stored_message_some (s : List message) (t : List Nat) (m : message)
    (h : find_stored_message s t = some m) : m ∈ s ∧ m.topic = t := by
  induction s with
  | nil => simp [find_stored_message] at h
  | cons this rest ih =>
    simp only [find_stored_message] at h
    split_ifs at h with h1
    · exact ⟨List.mem_cons_of_mem _ (ih h).1, (ih h).2⟩
    · simp only [Option.some.injEq] at h
      subst h
      exact ⟨by simp, (strcmp_eq_zero _ _).1 (by simpa using h1)⟩

theorem find_stored_message_absent (s : List message) (t : List Nat)
    (h : find_stored_message s t = none) : ∀ m ∈ s, m.topic ≠ t := by
  induction s with
  | nil => simp
  | cons this rest ih =>
    simp only [find_stored_message] at h
    split_ifs at h with h1
    intro m hm
    rcases List.mem_cons.1 hm with rfl | hm2
    · exact fun e => h1 ((strcmp_eq_zero _ _).2 e)
    · exact ih h m hm2

/-- C11: `process_read` sends exactly one packet, to the requesting client,
built from the requested topic and the payload of the retained entry for it, or
from the empty payload when the store has no entry for the topic; the state
(store, registry and so every subscription list) is unchanged. -/
theorem process_read_replies_once (b : broker) (client_ptr : Nat) (c : client)
    (t : List Nat) (hc : b.first_client_ptr[client_ptr]? = some c) :
    (process_read b client_ptr t).1 = b ∧
    (∃ payload, (process_read b client_ptr t).2 = [send_packet c t payload] ∧
      ((∃ m, find_stored_message b.first_message_ptr t = some m ∧
          m ∈ b.first_message_ptr ∧ m.topic = t ∧ payload = m.payload) ∨
        ((∀ m ∈ b.first_message_ptr, m.topic ≠ t) ∧ payload = []))) ∧
    (∀ q ∈ (process_read b client_ptr t).2, q.sk = c.sk) := by
  cases hf : find_stored_message b.first_message_ptr t with
  | none =>
    have hno := find_stored_message_absent _ _ hf
    refine ⟨by simp [process_read, hc, hf], ⟨[], by simp [process_read, hc, hf],
      Or.inr ⟨hno, rfl⟩⟩, ?_⟩
    intro q hq
    simp only [process_read, hc, hf, List.mem_singleton] at hq
    rw [hq]
    rfl
  | some m =>
    obtain ⟨hm, ht⟩ := find_stored_message_some _ _ _ hf
    refine ⟨by simp [process_read, hc, hf], ⟨m.payload, by simp [process_read, hc, hf],
      Or.inl ⟨m, rfl, hm, ht, rfl⟩⟩, ?_⟩
    intro q hq
    simp only [process_read, hc, hf, List.mem_singleton] at hq
    rw [hq]
    rfl

theorem process_read_replies_once_witness :
    (process_read
      { first_message_ptr := [{ size := 3, topic := bytes "t", payload := bytes "p" }],
        first_client_ptr := [{ sk := 3, subscribe_ptr := [] },
          { sk := 4, subscribe_ptr := [⟨bytes "*"⟩] }] } 0 (bytes "t")).1 =
      { first_message_ptr := [{ size := 3, topic := bytes "t", payload := bytes "p" }],
        first_client_ptr := [{ sk := 3, subscribe_ptr := [] },
          { sk := 4, subscribe_ptr := [⟨bytes "*"⟩] }] } ∧
    (process_read
      { first_message_ptr := [{ size := 3, topic := bytes "t", payload := bytes "p" }],
        first_client_ptr := [{ sk := 3, subscribe_ptr := [] },
          { sk := 4, subscribe_ptr := [⟨bytes "*"⟩] }] } 0 (bytes "t")).2 =
      [{ sk := 3, data := bytes "t\np" ++ [0] }] ∧
    (process_read
      { first_message_ptr := [{ size := 3, topic := bytes "t", payload := bytes "p" }],
        first_client_ptr := [{ sk := 3, subscribe_ptr := [] },
          { sk := 4, subscribe_ptr := [⟨bytes "*"⟩] }] } 0 (bytes "u")).2 =
      [{ sk := 3, data := bytes "u\n" ++ [0] }] :=
  ⟨(process_read_replies_once
      { first_message_ptr := [{ size := 3, topic := bytes "t", payload := bytes "p" }],
        first_client_ptr := [{ sk := 3, subscribe_ptr := [] },
          { sk := 4, subscribe_ptr := [⟨bytes "*"⟩] }] } 0 { sk := 3, subscribe_ptr := [] }
      (bytes "t") (by decide)).1, by decide, by decide⟩

theorem unsubscribe_loop_eq_erase (topic : List Nat) (l : List subscribe) :
    unsubscribe_loop topic l = l.erase { topic := topic } := by
  induction l with
  | nil => rfl
  | cons this rest ih =>
    by_cases h : strcmp this.topic topic = 0
    · have e : this = { topic := topic } := by
        cases this
        simp only [subscribe.mk.injEq]
        exact (strcmp_eq_zero _ _).1 h
      subst e
      simp [unsubscribe_loop, strcmp_self]
    · have e : this ≠ { topic := topic } := by
        intro e
        rw [e] at h
        exact h (strcmp_self _)
      simp only [unsubscribe_loop, ne_eq, h, not_false_eq_true, if_true, ih]
      rw [List.erase_cons_tail (by simpa using e)]

/-- C15: `process_unsubscribe` sends nothing, leaves the store and the other
clients as they are, and changes the client's subscription list by removing
the first entry equal (as a string) to the pattern: the entries before and
after it stay in order, the number of entries equal to the pattern drops by
one, and a list without such an entry is unchanged. -/
theorem process_unsubscribe_removes_first (b : broker) (client_ptr : Nat) (c : client)
    (s : List Nat) (hc : b.first_client_ptr[client_ptr]? = some c) :
    (process_unsubscribe b client_ptr s).2 = [] ∧
    (process_unsubscribe b client_ptr s).1.first_message_ptr = b.first_message_ptr ∧
    (∀ j, j ≠ client_ptr →
      (process_unsubscribe b client_ptr s).1.first_client_ptr[j]? =
        b.first_client_ptr[j]?) ∧
    ∃ c1, (process_unsubscribe b client_ptr s).1.first_client_ptr[client_ptr]? = some c1 ∧
      c1.sk = c.sk ∧
      ({ topic := s } ∉ c.subscribe_ptr → c1.subscribe_ptr = c.subscribe_ptr) ∧
      ({ topic := s } ∈ c.subscribe_ptr →
        (∃ l1 l2, c.subscribe_ptr = l1 ++ { topic := s } :: l2 ∧ { topic := s } ∉ l1 ∧
          c1.subscribe_ptr = l1 ++ l2) ∧
        c1.subscribe_ptr.count { topic := s } + 1 = c.subscribe_ptr.count { topic := s }) := by
  have hlt : client_ptr < b.first_client_ptr.length := by
    rcases Nat.lt_or_ge client_ptr b.first_client_ptr.length with h | h
    · exact h
    · rw [List.getElem?_eq_none h] at hc
      cases hc
  refine ⟨by simp [process_unsubscribe, hc], by simp [process_unsubscribe, hc], ?_, ?_⟩
  · intro j hj
    simp only [process_unsubscribe, hc]
    rw [List.getElem?_set_ne (fun e => hj e.symm)]
  · refine ⟨{ c with subscribe_ptr := unsubscribe_loop s c.subscribe_ptr }, ?_, rfl, ?_, ?_⟩
    · simp only [process_unsubscribe, hc]
      rw [List.getElem?_set_self hlt]
    · intro hn
      simp only [unsubscribe_loop_eq_erase]
      exact List.erase_of_not_mem hn
    · intro hm
      simp only [unsubscribe_loop_eq_erase]
      constructor
      · obtain ⟨l1, l2, h1, h2, h3⟩ := List.exists_erase_eq hm
        exact ⟨l1, l2, h2, h1, h3⟩
      · rw [List.count_erase_self]
        have : 0 < c.subscribe_ptr.count { topic := s } := List.count_pos_iff.2 hm
        omega

theorem process_unsubscribe_removes_first_witness :
    (process_unsubscribe
      { first_message_ptr := [],
        first_client_ptr := [{ sk := 3, subscribe_ptr :=
          [⟨bytes "a/b"⟩, ⟨bytes "a/+"⟩, ⟨bytes "c"⟩, ⟨bytes "a/+"⟩] }] } 0
      (bytes "a/+")).1.first_client_ptr =
      [{ sk := 3, subscribe_ptr := [⟨bytes "a/b"⟩, ⟨bytes "c"⟩, ⟨bytes "a/+"⟩] }] ∧
    (process_unsubscribe
      { first_message_ptr := [],
        first_client_ptr := [{ sk := 3, subscribe_ptr :=
          [⟨bytes "a/b"⟩, ⟨bytes "a/+"⟩, ⟨bytes "c"⟩, ⟨bytes "a/+"⟩] }] } 0
      (bytes "a/+")).2 = [] :=
  ⟨by decide, (process_unsubscribe_removes_first
      { first_message_ptr := [],
        first_client_ptr := [{ sk := 3, subscribe_ptr :=
          [⟨bytes "a/b"⟩, ⟨bytes "a/+"⟩, ⟨bytes "c"⟩, ⟨bytes "a/+"⟩] }] } 0
      { sk := 3, subscribe_ptr :=
          [⟨bytes "a/b"⟩, ⟨bytes "a/+"⟩, ⟨bytes "c"⟩, ⟨bytes "a/+"⟩] }
      (bytes "a/+") (by decide)).1⟩

/-- C16 (counterexample): a client subscribed to `a` that subscribes to `b` has
the list `b`, `a` afterwards, not `a` followed by `b`. -/
theorem process_subscribe_not_at_end :
    (process_subscribe
      { first_message_ptr := [],
        first_client_ptr := [{ sk := 3, subscribe_ptr := [⟨bytes "a"⟩] }] } 0
      (bytes "b")).1.first_client_ptr =
      [{ sk := 3, subscribe_ptr := [⟨bytes "b"⟩, ⟨bytes "a"⟩] }] ∧
    (process_subscribe
      { first_message_ptr := [],
        first_client_ptr := [{ sk := 3, subscribe_ptr := [⟨bytes "a"⟩] }] } 0
      (bytes "b")).1.first_client_ptr ≠
      [{ sk := 3, subscribe_ptr := [⟨bytes "a"⟩] ++ [⟨bytes "b"⟩] }] := by
  decide

/-- C16 (amended): after `process_subscribe` the client's subscription list is
the new pattern followed by the previous list: the new record is linked in at
the head, so the list runs from the latest subscription to the earliest, and
nothing is de-duplicated (the pattern occurs once more than before). -/
theorem process_subscribe_at_head (b : broker) (client_ptr : Nat) (c : client)
    (s : List Nat) (hc : b.first_client_ptr[client_ptr]? = some c) :
    ∃ c1, (process_subscribe b client_ptr s).1.first_client_ptr[client_ptr]? = some c1 ∧
      c1.sk = c.sk ∧
      c1.subscribe_ptr = { topic := s } :: c.subscribe_ptr ∧
      c1.subscribe_ptr.count { topic := s } = c.subscribe_ptr.count { topic := s } + 1 := by
  have hlt : client_ptr < b.first_client_ptr.length := by
    rcases Nat.lt_or_ge client_ptr b.first_client_ptr.length with h | h
    · exact h
    · rw [List.getElem?_eq_none h] at hc
      cases hc
  refine ⟨{ c with subscribe_ptr := { topic := s } :: c.subscribe_ptr }, ?_, rfl, rfl, ?_⟩
  · simp only [process_subscribe, hc]
    rw [List.getElem?_set_self hlt]
  · simp

theorem process_subscribe_at_head_witness :
    ∃ c1, (process_subscribe
      { first_message_ptr := [],
        first_client_ptr := [{ sk := 3, subscribe_ptr := [⟨bytes "a"⟩, ⟨bytes "b"⟩] }] } 0
      (bytes "b")).1.first_client_ptr[0]? = some c1 ∧
      c1.subscribe_ptr = [⟨bytes "b"⟩, ⟨bytes "a"⟩, ⟨bytes "b"⟩] := by
  obtain ⟨c1, h1, _, h3, _⟩ := process_subscribe_at_head
    { first_message_ptr := [],
      first_client_ptr := [{ sk := 3, subscribe_ptr := [⟨bytes "a"⟩, ⟨bytes "b"⟩] }] } 0
    { sk := 3, subscribe_ptr := [⟨bytes "a"⟩, ⟨bytes "b"⟩] } (bytes "b") (by decide)
  exact ⟨c1, h1, h3⟩

/-! ## Command router: rejected and ignored frames -/

/-- C17: when `recv` returns exactly `XBUS_MAX_SIZE` bytes, whatever they are,
`receive_packet` sends no packet and leaves the whole state as it is: the
store, every subscription list, and the sending client stays registered. -/
theorem receive_packet_max_size_rejected (b : broker) (client_ptr : Nat)
    (buffer : List Nat) (h : buffer.length = XBUS_MAX_SIZE) :
    receive_packet b client_ptr buffer = (b, []) := by
  unfold receive_packet
  cases b.first_client_ptr[client_ptr]? with
  | none => rfl
  | some c =>
    have h0 : XBUS_MAX_SIZE ≠ 0 := by decide
    simp only [h, h0, if_true, if_false]

theorem receive_packet_max_size_rejected_witness :
    (bytes "WRITE t\n" ++ List.replicate 8184 120).length = XBUS_MAX_SIZE ∧
    receive_packet
      { first_message_ptr := [],
        first_client_ptr := [{ sk := 3, subscribe_ptr := [] },
          { sk := 4, subscribe_ptr := [⟨bytes "*"⟩] }] } 0
      (bytes "WRITE t\n" ++ List.replicate 8184 120) =
      Prod.mk
        { first_message_ptr := [],
          first_client_ptr := [{ sk := 3, subscribe_ptr := [] },
            { sk := 4, subscribe_ptr := [⟨bytes "*"⟩] }] } [] := by
  have hl : (bytes "WRITE t\n" ++ List.replicate 8184 120).length = XBUS_MAX_SIZE := by
    rw [List.length_append, List.length_replicate]
    rfl
  exact ⟨hl, receive_packet_max_size_rejected _ 0 _ hl⟩

/-- C18: a frame whose topic is present and not empty and whose command word
is none of PUBLISH, WRITE, READ, SUBSCRIBE, UNSUBSCRIBE, LIST (compared byte by
byte) makes `receive_packet` send no packet and leave the state unchanged. -/
theorem receive_packet_unknown_command (b : broker) (client_ptr : Nat)
    (buffer command topic : List Nat) (payload : Option (List Nat))
    (hsplit : split_packet buffer = (some command, some topic, payload))
    (hcmd : command ∉ [bytes "PUBLISH", bytes "WRITE", bytes "READ", bytes "SUBSCRIBE",
      bytes "UNSUBSCRIBE", bytes "LIST"]) :
    receive_packet b client_ptr buffer = (b, []) := by
  have hne : ∀ w, w ∈ [bytes "PUBLISH", bytes "WRITE", bytes "READ", bytes "SUBSCRIBE",
      bytes "UNSUBSCRIBE", bytes "LIST"] → strcmp command w ≠ 0 := by
    intro w hw e
    rw [(strcmp_eq_zero _ _).1 e] at hcmd
    exact hcmd hw
  have h1 := hne (bytes "PUBLISH") (by simp)
  have h2 := hne (bytes "WRITE") (by simp)
  have h3 := hne (bytes "READ") (by simp)
  have h4 := hne (bytes "SUBSCRIBE") (by simp)
  have h5 := hne (bytes "UNSUBSCRIBE") (by simp)
  have h6 := hne (bytes "LIST") (by simp)
  unfold receive_packet
  cases b.first_client_ptr[client_ptr]? with
  | none => rfl
  | some c =>
    have h0 : buffer.length ≠ 0 := by
      intro e
      rw [List.length_eq_zero.1 e] at hsplit
      simp [split_packet, strtok] at hsplit
    simp only [h0, if_false, hsplit, h1, h2, h3, h4, h5, h6]
    split_ifs <;> rfl

theorem receive_packet_unknown_command_witness :
    split_packet (bytes "publish a/b\nhello") =
      (some (bytes "publish"), some (bytes "a/b"), some (bytes "hello")) ∧
    receive_packet
      { first_message_ptr := [],
        first_client_ptr := [{ sk := 3, subscribe_ptr := [] },
          { sk := 4, subscribe_ptr := [⟨bytes "*"⟩] }] } 0 (bytes "publish a/b\nhello") =
      Prod.mk
        { first_message_ptr := [],
          first_client_ptr := [{ sk := 3, subscribe_ptr := [] },
            { sk := 4, subscribe_ptr := [⟨bytes "*"⟩] }] } [] :=
  ⟨by decide, receive_packet_unknown_command _ 0 (bytes "publish a/b\nhello")
    (bytes "publish") (bytes "a/b") (some (bytes "hello")) (by decide) (by decide)⟩

/-! ## Retained message store: idempotence and capacity -/

theorem store_message_twice (s : List message) (t p : List Nat) :
    store_message (store_message s t p) t p = store_message s t p := by
  induction s with
  | nil => simp [store_message, strcmp_self]
  | cons this rest ih =>
    by_cases h1 : strcmp this.topic t < 0
    · simp only [store_message, h1, if_true, ih]
    · by_cases h2 : strcmp this.topic t = 0
      · by_cases h3 : p.length > this.size
        · simp [store_message, h2, h3]
        · simp [store_message, h2, h3]
      · simp [store_message, h1, h2, strcmp_self]

theorem store_message_has_topic (s : List message) (t p : List Nat) :
    t ∈ (store_message s t p).map message.topic := by
  obtain ⟨m, hm, ht, _⟩ := find_store_message_same s t p
  exact List.mem_map.2 ⟨m, (find_stored_message_some _ _ _ hm).1, ht⟩

theorem store_ordered_one_entry (l : List message) (t : List Nat) (h : store_ordered l)
    (hm : ∃ m ∈ l, m.topic = t) :
    (l.filter (fun m => decide (m.topic = t))).length = 1 := by
  induction l with
  | nil =>
    obtain ⟨m, hm, _⟩ := hm
    simp at hm
  | cons this rest ih =>
    obtain ⟨hhead, hrest⟩ := List.pairwise_cons.1 h
    by_cases e : this.topic = t
    · have hnil : rest.filter (fun m => decide (m.topic = t)) = [] := by
        rw [List.filter_eq_nil_iff]
        intro m hm2
        have := strcmp_lt_irrefl _ _ (hhead m hm2)
        rw [e] at this
        simpa using fun e2 => this e2.symm
      simp [List.filter_cons, e, hnil]
    · obtain ⟨m, hm2, e2⟩ := hm
      rcases List.mem_cons.1 hm2 with rfl | hm3
      · exact absurd e2 e
      · simp only [List.filter_cons, e, decide_False, Bool.false_eq_true, if_false]
        exact ih hrest ⟨m, hm3, e2⟩

/-- C13: on every store built by `store_message` calls, writing the same topic
and payload a second time gives the very same store (entries, order, payloads
and capacities); after it exactly one entry has the topic and
`find_stored_message` still yields the payload. -/
theorem store_message_idempotent (writes : List (List Nat × List Nat)) (t p : List Nat) :
    store_message (store_message (store_after writes) t p) t p =
      store_message (store_after writes) t p ∧
    ((store_message (store_message (store_after writes) t p) t p).filter
      (fun m => decide (m.topic = t))).length = 1 ∧
    ∃ m, find_stored_message
        (store_message (store_message (store_after writes) t p) t p) t = some m ∧
      m.payload = p := by
  refine ⟨store_message_twice _ t p, ?_, ?_⟩
  · rw [store_message_twice]
    have hord := store_after_ordered (writes ++ [(t, p)])
    rw [store_after_append] at hord
    obtain ⟨m, hm, ht, _⟩ := find_store_message_same (store_after writes) t p
    exact store_ordered_one_entry _ t hord ⟨m, (find_stored_message_some _ _ _ hm).1, ht⟩
  · obtain ⟨m, hm, _, hp⟩ :=
      find_store_message_same (store_message (store_after writes) t p) t p
    exact ⟨m, hm, hp⟩

theorem store_ordered_tail (this : message) (rest : List message)
    (h : store_ordered (this :: rest)) : store_ordered rest :=
  (List.pairwise_cons.1 h).2

theorem store_ordered_above (this : message) (rest : List message) (t : List Nat)
    (h : store_ordered (this :: rest)) (h1 : ¬ strcmp this.topic t < 0) :
    ∀ m ∈ rest, m.topic ≠ t := by
  intro m hm e
  have := (List.pairwise_cons.1 h).1 m hm
  rw [e] at this
  exact h1 this

/-- In an ordered store the entry `store_message` leaves for the topic comes
from the entry found before the call, or is new when none was found. -/
theorem find_store_message_entry (s : List message) (t p : List Nat)
    (h : store_ordered s) :
    find_stored_message (store_message s t p) t =
      some (match find_stored_message s t with
        | some m =>
          if p.length > m.size then { m with size := p.length, payload := p }
          else { m with payload := p }
        | none => { size := p.length, topic := t, payload := p }) := by
  induction s with
  | nil => simp [store_message, find_stored_message, strcmp_self]
  | cons this rest ih =>
    by_cases h1 : strcmp this.topic t < 0
    · have hne : strcmp this.topic t ≠ 0 := by omega
      simp only [store_message, h1, if_true, find_stored_message, hne, ne_eq,
        not_false_eq_true]
      exact ih (store_ordered_tail this rest h)
    · by_cases h2 : strcmp this.topic t = 0
      · by_cases h3 : p.length > this.size
        · simp [store_message, find_stored_message, h2, h3]
        · simp [store_message, find_stored_message, h2, h3]
      · have hnone : find_stored_message rest t = none :=
          find_stored_message_none rest t (store_ordered_above this rest t h h1)
        simp [store_message, find_stored_message, h1, h2, strcmp_self, hnone]

theorem mem_store_message_cases (s : List message) (t p : List Nat) (m : message)
    (h : store_ordered s) (hm : m ∈ store_message s t p) :
    (m ∈ s ∧ m.topic ≠ t) ∨
    (m.topic = t ∧
      ((∃ m0 ∈ s, m0.topic = t ∧ m.size = max m0.size p.length) ∨
        ((∀ m0 ∈ s, m0.topic ≠ t) ∧ m.size = p.length))) := by
  induction s with
  | nil =>
    simp only [store_message, List.mem_singleton] at hm
    subst hm
    exact Or.inr ⟨rfl, Or.inr ⟨by simp, rfl⟩⟩
  | cons this rest ih =>
    by_cases h1 : strcmp this.topic t < 0
    · have hne : this.topic ≠ t := strcmp_lt_irrefl _ _ h1
      simp only [store_message, h1, if_true] at hm
      rcases List.mem_cons.1 hm with rfl | hm2
      · exact Or.inl ⟨by simp, hne⟩
      · rcases ih (store_ordered_tail this rest h) hm2 with ⟨h3, h4⟩ | ⟨h3, h4⟩
        · exact Or.inl ⟨List.mem_cons_of_mem _ h3, h4⟩
        · refine Or.inr ⟨h3, ?_⟩
          rcases h4 with ⟨m0, hm0, e1, e2⟩ | ⟨h5, h6⟩
          · exact Or.inl ⟨m0, List.mem_cons_of_mem _ hm0, e1, e2⟩
          · refine Or.inr ⟨?_, h6⟩
            intro m0 hm0
            rcases List.mem_cons.1 hm0 with rfl | hm0
            · exact hne
            · exact h5 m0 hm0
    · have habove := store_ordered_above this rest t h h1
      by_cases h2 : strcmp this.topic t = 0
      · have et : this.topic = t := (strcmp_eq_zero _ _).1 h2
        simp only [store_message, h1, if_false, h2, if_true] at hm
        rcases List.mem_cons.1 hm with rfl | hm2
        · refine Or.inr ⟨?_, Or.inl ⟨this, by simp, et, ?_⟩⟩
          · split_ifs <;> exact et
          · split_ifs with h3
            · simp only
              omega
            · simp only
              omega
        · exact Or.inl ⟨List.mem_cons_of_mem _ hm2, habove m hm2⟩
      · have hne : this.topic ≠ t := fun e => h2 ((strcmp_eq_zero _ _).2 e)
        have hall : ∀ m0 ∈ this :: rest, m0.topic ≠ t := by
          intro m0 hm0
          rcases List.mem_cons.1 hm0 with rfl | hm0
          · exact hne
          · exact habove m0 hm0
        simp only [store_message, h1, if_false, h2] at hm
        rcases List.mem_cons.1 hm with rfl | hm2
        · exact Or.inr ⟨rfl, Or.inr ⟨hall, rfl⟩⟩
        · exact Or.inl ⟨hm2, hall m hm2⟩

theorem store_message_keeps_topics (s : List message) (t p : List Nat) (m : message)
    (hm : m ∈ s) : ∃ m2 ∈ store_message s t p, m2.topic = m.topic := by
  induction s with
  | nil => simp at hm
  | cons this rest ih =>
    simp only [store_message]
    split_ifs with h1 h2 h3
    · rcases List.mem_cons.1 hm with rfl | hm2
      · exact ⟨m, by simp, rfl⟩
      · obtain ⟨m2, h4, h5⟩ := ih hm2
        exact ⟨m2, List.mem_cons_of_mem _ h4, h5⟩
    · rcases List.mem_cons.1 hm with rfl | hm2
      · exact ⟨_, List.mem_cons_self _ _, rfl⟩
      · exact ⟨m, List.mem_cons_of_mem _ hm2, rfl⟩
    · rcases List.mem_cons.1 hm with rfl | hm2
      · exact ⟨_, List.mem_cons_self _ _, rfl⟩
      · exact ⟨m, List.mem_cons_of_mem _ hm2, rfl⟩
    · exact ⟨m, List.mem_cons_of_mem _ hm, rfl⟩

theorem longest_written_append (ws : List (List Nat × List Nat)) (t p u : List Nat) :
    longest_written (ws ++ [(t, p)]) u =
      if t = u then max (longest_written ws u) p.length else longest_written ws u := by
  unfold longest_written
  by_cases h : t = u
  · simp [List.filter_append, List.filter_cons, h, List.foldl_append]
  · simp [List.filter_append, List.filter_cons, h]

theorem store_after_capacity (writes : List (List Nat × List Nat)) :
    (∀ m ∈ store_after writes, m.size = longest_written writes m.topic) ∧
    (∀ u, (∀ m ∈ store_after writes, m.topic ≠ u) → longest_written writes u = 0) := by
  induction writes using List.reverseRecOn with
  | nil => simp [store_after, longest_written]
  | append_singleton ws w ih =>
    obtain ⟨t, p⟩ := w
    obtain ⟨hA, hB⟩ := ih
    rw [store_after_append]
    constructor
    · intro m hm
      rw [longest_written_append]
      rcases mem_store_message_cases _ t p m (store_after_ordered ws) hm with
        ⟨h1, h2⟩ | ⟨h1, ⟨m0, hm0, e1, e2⟩ | ⟨h3, h4⟩⟩
      · rw [if_neg (fun e => h2 e.symm)]
        exact hA m h1
      · rw [if_pos h1.symm, e2, hA m0 hm0, e1, h1]
      · rw [if_pos h1.symm, h4, h1, hB t h3]
        simp
    · intro u hu
      have hne : t ≠ u := by
        intro e
        obtain ⟨m, hm, ht, _⟩ := find_store_message_same (store_after ws) t p
        exact hu m (find_stored_message_some _ _ _ hm).1 (ht.trans e)
      rw [longest_written_append, if_neg hne]
      apply hB
      intro m hm e
      obtain ⟨m2, h2, e2⟩ := store_message_keeps_topics _ t p m hm
      exact hu m2 h2 (e2.trans e)

/-- C14: on a store built by `store_message` calls, a write to a topic whose
entry has capacity (`size`) at least the payload length leaves the capacity as
it is, a longer payload makes the capacity exactly its length, and a new entry
gets the payload length as capacity; so no entry's capacity decreases by a
write, and every entry's capacity is the largest payload length written to its
topic. -/
theorem store_message_capacity (writes : List (List Nat × List Nat)) (t p u : List Nat) :
    (∀ m, find_stored_message (store_after writes) t = some m → p.length ≤ m.size →
      ∃ m2, find_stored_message (store_message (store_after writes) t p) t = some m2 ∧
        m2.size = m.size) ∧
    (∀ m, find_stored_message (store_after writes) t = some m → m.size < p.length →
      ∃ m2, find_stored_message (store_message (store_after writes) t p) t = some m2 ∧
        m2.size = p.length) ∧
    (find_stored_message (store_after writes) t = none →
      ∃ m2, find_stored_message (store_message (store_after writes) t p) t = some m2 ∧
        m2.size = p.length) ∧
    (∀ m, find_stored_message (store_after writes) u = some m →
      ∃ m2, find_stored_message (store_message (store_after writes) t p) u = some m2 ∧
        m.size ≤ m2.size) ∧
    (∀ m ∈ store_after writes, m.size = longest_written writes m.topic) := by
  have hent := find_store_message_entry (store_after writes) t p (store_after_ordered writes)
  have h1 : ∀ m, find_stored_message (store_after writes) t = some m → p.length ≤ m.size →
      ∃ m2, find_stored_message (store_message (store_after writes) t p) t = some m2 ∧
        m2.size = m.size := by
    intro m hm hle
    rw [hm] at hent
    have hn : ¬ p.length > m.size := by omega
    simp only [hn, if_false] at hent
    exact ⟨_, hent, rfl⟩
  have h2 : ∀ m, find_stored_message (store_after writes) t = some m → m.size < p.length →
      ∃ m2, find_stored_message (store_message (store_after writes) t p) t = some m2 ∧
        m2.size = p.length := by
    intro m hm hlt
    rw [hm] at hent
    have hn : p.length > m.size := hlt
    simp only [hn, if_true] at hent
    exact ⟨_, hent, rfl⟩
  refine ⟨h1, h2, ?_, ?_, (store_after_capacity writes).1⟩
  · intro hn
    rw [hn] at hent
    exact ⟨_, hent, rfl⟩
  · intro m hm
    by_cases e : u = t
    · subst e
      rcases Nat.lt_or_ge m.size p.length with hlt | hge
      · obtain ⟨m2, h3, h4⟩ := h2 m hm hlt
        exact ⟨m2, h3, by omega⟩
      · obtain ⟨m2, h3, h4⟩ := h1 m hm hge
        exact ⟨m2, h3, by omega⟩
    · rw [find_store_message_other _ t p u e]
      exact ⟨m, hm, Nat.le_refl _⟩

theorem store_message_capacity_witness :
    (∃ m2, find_stored_message
        (store_message (store_after [(bytes "t", bytes "abc")]) (bytes "t") (bytes "a"))
        (bytes "t") = some m2 ∧ m2.size = 3) ∧
    find_stored_message
        (store_message (store_after [(bytes "t", bytes "abc")]) (bytes "t") (bytes "a"))
        (bytes "t") = some { size := 3, topic := bytes "t", payload := bytes "a" } ∧
    longest_written [(bytes "t", bytes "abc"), (bytes "t", bytes "a")] (bytes "t") = 3 :=
  ⟨(store_message_capacity [(bytes "t", bytes "abc")] (bytes "t") (bytes "a") (bytes "t")).1
      { size := 3, topic := bytes "t", payload := bytes "abc" } (by decide) (by decide),
    by decide, by decide⟩

/-! ## Request decoding -/

theorem takeWhile_all (P : Nat → Bool) (a : List Nat) (h : ∀ x ∈ a, P x = true) :
    a.takeWhile P = a ∧ a.dropWhile P = [] := by
  induction a with
  | nil => simp
  | cons x a ih =>
    have hx : P x = true := h x (by simp)
    have := ih (fun y hy => h y (List.mem_cons_of_mem _ hy))
    simp [List.takeWhile_cons, List.dropWhile_cons, hx, this.1, this.2]

theorem takeWhile_stop (P : Nat → Bool) (a r : List Nat) (d : Nat)
    (h : ∀ x ∈ a, P x = true) (hd : P d = false) :
    (a ++ d :: r).takeWhile P = a ∧ (a ++ d :: r).dropWhile P = d :: r := by
  induction a with
  | nil => simp [List.takeWhile_cons, List.dropWhile_cons, hd]
  | cons x a ih =>
    have hx : P x = true := h x (by simp)
    have := ih (fun y hy => h y (List.mem_cons_of_mem _ hy))
    simp [List.takeWhile_cons, List.dropWhile_cons, hx, this.1, this.2]

theorem takeWhile_tail (P : Nat → Bool) (a tail : List Nat) (d : Nat)
    (h : ∀ x ∈ a, P x = true) (hd : P d = false)
    (htail : tail = [] ∨ ∃ r, tail = d :: r) : (a ++ tail).takeWhile P = a := by
  rcases htail with rfl | ⟨r, rfl⟩
  · rw [List.append_nil]
    exact (takeWhile_all P a h).1
  · exact (takeWhile_stop P a r d h hd).1

/-- One `strtok` call on a text that starts with a token followed by a
delimiter: the token is returned and the scan resumes after the delimiter. -/
theorem strtok_token (tok rest delim : List Nat) (d : Nat) (hne : tok ≠ [])
    (htok : ∀ x ∈ tok, x ∉ delim) (hd : d ∈ delim) :
    strtok (tok ++ d :: rest) delim = (some tok, rest) := by
  obtain ⟨x, tl, rfl⟩ := List.exists_cons_of_ne_nil hne
  have hx : x ∉ delim := htok x (by simp)
  have h1 := takeWhile_stop (fun c => decide (c ∉ delim)) (x :: tl) rest d
    (fun y hy => by simpa using htok y hy) (by simpa using hd)
  have hstart : (x :: tl ++ d :: rest).dropWhile (fun c => decide (c ∈ delim)) =
      x :: tl ++ d :: rest := by
    simp [List.dropWhile_cons, hx]
  unfold strtok
  simp only [hstart]
  rw [h1.1, h1.2]
  simp

/-- One `strtok` call on a text that is one token with no delimiter in it. -/
theorem strtok_last (tok delim : List Nat) (hne : tok ≠ [])
    (htok : ∀ x ∈ tok, x ∉ delim) : strtok tok delim = (some tok, []) := by
  obtain ⟨x, tl, rfl⟩ := List.exists_cons_of_ne_nil hne
  have hx : x ∉ delim := htok x (by simp)
  have h1 := takeWhile_all (fun c => decide (c ∉ delim)) (x :: tl)
    (fun y hy => by simpa using htok y hy)
  have hstart : (x :: tl).dropWhile (fun c => decide (c ∈ delim)) = x :: tl := by
    simp [List.dropWhile_cons, hx]
  unfold strtok
  simp only [hstart]
  rw [h1.1, h1.2]
  simp

theorem strtok_nil (delim : List Nat) : strtok [] delim = (none, []) := by
  simp [strtok]

theorem split_packet_request (command topic payload tail : List Nat)
    (hcmd : command ≠ []) (hc32 : 32 ∉ command) (hc10 : 10 ∉ command) (hc0 : 0 ∉ command)
    (ht : topic ≠ []) (ht10 : 10 ∉ topic) (ht0 : 0 ∉ topic) (hp0 : 0 ∉ payload)
    (htail : tail = [] ∨ ∃ r, tail = 0 :: r) :
    split_packet (command ++ [32] ++ topic ++ [10] ++ payload ++ tail) =
      (some command, some topic, if payload = [] then none else some payload) := by
  have htext : (command ++ [32] ++ topic ++ [10] ++ payload ++ tail).takeWhile
      (fun c => decide (c ≠ 0)) = command ++ [32] ++ topic ++ [10] ++ payload := by
    apply takeWhile_tail _ _ _ 0 _ (by simp) htail
    intro x hx
    simp only [List.mem_append, List.mem_singleton] at hx
    have : x ≠ 0 := by
      rintro rfl
      rcases hx with (((h | h) | h) | h) | h
      · exact hc0 h
      · omega
      · exact ht0 h
      · omega
      · exact hp0 h
    simpa using this
  have h1 : strtok (command ++ [32] ++ topic ++ [10] ++ payload) [32, 10] =
      (some command, topic ++ 10 :: payload) := by
    have e : command ++ [32] ++ topic ++ [10] ++ payload =
        command ++ 32 :: (topic ++ 10 :: payload) := by simp
    rw [e]
    apply strtok_token _ _ _ _ hcmd _ (by simp)
    intro x hx hmem
    simp only [List.mem_cons, List.mem_singleton, List.not_mem_nil, or_false] at hmem
    rcases hmem with rfl | rfl
    · exact hc32 hx
    · exact hc10 hx
  have h2 : strtok (topic ++ 10 :: payload) [10] = (some topic, payload) := by
    apply strtok_token _ _ _ _ ht _ (by simp)
    intro x hx hmem
    simp only [List.mem_singleton] at hmem
    subst hmem
    exact ht10 hx
  have h3 : (strtok payload []).1 = if payload = [] then none else some payload := by
    by_cases hp : payload = []
    · simp [hp, strtok_nil]
    · rw [strtok_last payload [] hp (by simp)]
      simp [hp]
  unfold split_packet
  simp only [htext, h1, h2, h3]

theorem receive_packet_route (b : broker) (client_ptr : Nat) (c : client)
    (buffer command topic : List Nat) (payload : Option (List Nat))
    (hreg : b.first_client_ptr[client_ptr]? = some c)
    (hlen : buffer.length < XBUS_MAX_SIZE)
    (hsplit : split_packet buffer = (some command, some topic, payload))
    (ht : topic ≠ []) :
    receive_packet b client_ptr buffer =
      route_command b client_ptr command topic (payload.getD []) := by
  have h0 : buffer.length ≠ 0 := by
    intro e
    rw [List.length_eq_zero.1 e] at hsplit
    simp [split_packet, strtok] at hsplit
  have h1 : buffer.length ≠ XBUS_MAX_SIZE := by omega
  unfold receive_packet route_command
  simp only [hreg, h0, h1, if_false, hsplit, ht]

/-- C12 (counterexample): for the 13-byte frame `WRITE t`, line feed, `ab`, a
NUL byte, `cd`, the bytes after the first line feed are `ab`, NUL, `cd`, but
`receive_packet` runs `process_write` with the payload `ab`: the buffer is read
as a C string, which ends at the first NUL byte. -/
theorem receive_packet_payload_not_verbatim :
    decode_by_first_line (bytes "WRITE t\nab" ++ [0] ++ bytes "cd") =
      (bytes "WRITE", bytes "t", bytes "ab" ++ [0] ++ bytes "cd") ∧
    receive_packet
      { first_message_ptr := [], first_client_ptr := [{ sk := 3, subscribe_ptr := [] }] } 0
      (bytes "WRITE t\nab" ++ [0] ++ bytes "cd") =
      process_write
        { first_message_ptr := [], first_client_ptr := [{ sk := 3, subscribe_ptr := [] }] } 0
        (bytes "t") (bytes "ab") ∧
    receive_packet
      { first_message_ptr := [], first_client_ptr := [{ sk := 3, subscribe_ptr := [] }] } 0
      (bytes "WRITE t\nab" ++ [0] ++ bytes "cd") ≠
      process_write
        { first_message_ptr := [], first_client_ptr := [{ sk := 3, subscribe_ptr := [] }] } 0
        (bytes "t") (bytes "ab" ++ [0] ++ bytes "cd") := by
  decide

/-- C12 (amended): a frame shorter than the maximum size whose bytes before the
first NUL byte (all of them when there is none) are a command, one space, a
topic, one line feed and a payload, the command not empty and free of spaces
and line feeds, the topic not empty and free of line feeds, is decoded into
exactly that command, topic and payload, and the handler of the command runs
with that topic and payload: the payload is the bytes after the first line
feed up to the first NUL byte, unchanged, embedded line feeds included. The
same holds without line feed and payload, the payload then being empty. -/
theorem receive_packet_decodes_request (b : broker) (client_ptr : Nat) (c : client)
    (command topic payload tail : List Nat)
    (hreg : b.first_client_ptr[client_ptr]? = some c)
    (hcmd : command ≠ []) (hc32 : 32 ∉ command) (hc10 : 10 ∉ command) (hc0 : 0 ∉ command)
    (ht : topic ≠ []) (ht10 : 10 ∉ topic) (ht0 : 0 ∉ topic) (hp0 : 0 ∉ payload)
    (htail : tail = [] ∨ ∃ r, tail = 0 :: r) :
    ((command ++ [32] ++ topic ++ [10] ++ payload ++ tail).length < XBUS_MAX_SIZE →
      split_packet (command ++ [32] ++ topic ++ [10] ++ payload ++ tail) =
        (some command, some topic, if payload = [] then none else some payload) ∧
      decode_by_first_line (command ++ [32] ++ topic ++ [10] ++ payload) =
        (command, topic, payload) ∧
      receive_packet b client_ptr (command ++ [32] ++ topic ++ [10] ++ payload ++ tail) =
        route_command b client_ptr command topic payload) ∧
    ((command ++ [32] ++ topic ++ tail).length < XBUS_MAX_SIZE →
      receive_packet b client_ptr (command ++ [32] ++ topic ++ tail) =
        route_command b client_ptr command topic []) := by
  constructor
  · intro hlen
    have hs := split_packet_request command topic payload tail hcmd hc32 hc10 hc0 ht ht10
      ht0 hp0 htail
    refine ⟨hs, ?_, ?_⟩
    · have e : command ++ [32] ++ topic ++ [10] ++ payload =
          (command ++ 32 :: topic) ++ 10 :: payload := by simp
      have hline := takeWhile_stop (fun c => decide (c ≠ 10)) (command ++ 32 :: topic)
        payload 10 (by
          intro x hx
          simp only [List.mem_append, List.mem_cons] at hx
          have : x ≠ 10 := by
            rintro rfl
            rcases hx with h | h | h
            · exact hc10 h
            · omega
            · exact ht10 h
          simpa using this) (by simp)
      have hword := takeWhile_stop (fun c => decide (c ≠ 32)) command topic 32
        (by
          intro x hx
          have : x ≠ 32 := by
            rintro rfl
            exact hc32 hx
          simpa using this) (by simp)
      unfold decode_by_first_line
      simp only [e, hline.1, hline.2, hword.1, hword.2, List.drop_succ_cons, List.drop_zero]
    · rw [receive_packet_route b client_ptr c _ command topic _ hreg hlen hs ht]
      by_cases hp : payload = []
      · simp [hp]
      · simp [hp]
  · intro hlen
    have hs : split_packet (command ++ [32] ++ topic ++ tail) =
        (some command, some topic, none) := by
      have htext : (command ++ [32] ++ topic ++ tail).takeWhile
          (fun c => decide (c ≠ 0)) = command ++ [32] ++ topic := by
        apply takeWhile_tail _ _ _ 0 _ (by simp) htail
        intro x hx
        simp only [List.mem_append, List.mem_singleton] at hx
        have : x ≠ 0 := by
          rintro rfl
          rcases hx with (h | h) | h
          · exact hc0 h
          · omega
          · exact ht0 h
        simpa using this
      have h1 : strtok (command ++ [32] ++ topic) [32, 10] = (some command, topic) := by
        have e : command ++ [32] ++ topic = command ++ 32 :: topic := by simp
        rw [e]
        apply strtok_token _ _ _ _ hcmd _ (by simp)
        intro x hx hmem
        simp only [List.mem_cons, List.mem_singleton, List.not_mem_nil, or_false] at hmem
        rcases hmem with rfl | rfl
        · exact hc32 hx
        · exact hc10 hx
      have h2 : strtok topic [10] = (some topic, []) := by
        apply strtok_last _ _ ht
        intro x hx hmem
        simp only [List.mem_singleton] at hmem
        subst hmem
        exact ht10 hx
      unfold split_packet
      simp only [htext, h1, h2, strtok_nil]
    rw [receive_packet_route b client_ptr c _ command topic _ hreg hlen hs ht]
    rfl

theorem receive_packet_decodes_request_witness :
    receive_packet
      { first_message_ptr := [],
        first_client_ptr := [{ sk := 3, subscribe_ptr := [] },
          { sk := 4, subscribe_ptr := [⟨bytes "a/+"⟩] }] } 0
      (bytes "PUBLISH" ++ [32] ++ bytes "a/b" ++ [10] ++ bytes "two\nlines" ++ [0]) =
      Prod.mk
        { first_message_ptr := [],
          first_client_ptr := [{ sk := 3, subscribe_ptr := [] },
            { sk := 4, subscribe_ptr := [⟨bytes "a/+"⟩] }] }
        [{ sk := 4, data := bytes "a/b\ntwo\nlines" ++ [0] }] :=
  (((receive_packet_decodes_request
      { first_message_ptr := [],
        first_client_ptr := [{ sk := 3, subscribe_ptr := [] },
          { sk := 4, subscribe_ptr := [⟨bytes "a/+"⟩] }] } 0 { sk := 3, subscribe_ptr := [] }
      (bytes "PUBLISH") (bytes "a/b") (bytes "two\nlines") [0]
      (by decide) (by decide) (by decide) (by decide) (by decide) (by decide) (by decide)
      (by decide) (by decide) (Or.inr ⟨[], rfl⟩)).1 (by decide)).2.2).trans (by decide)

/-! ## Client library: theorems -/

theorem concat_copy_eq (src : List Nat) (size : Nat) :
    (concat_copy src size).1 = src.take (size - 1) ∧
    (concat_copy src size).2 = size - (src.take (size - 1)).length := by
  induction src generalizing size with
  | nil => simp [concat_copy]
  | cons c src ih =>
    by_cases h : size > 1
    · obtain ⟨k, rfl⟩ : ∃ k, size = k + 2 := ⟨size - 2, by omega⟩
      have := ih (k + 1)
      simp only [concat_copy, h, if_true, Nat.add_sub_cancel] at this ⊢
      have e : k + 2 - 1 = k + 1 := by omega
      rw [e, this.1, this.2]
      simp only [List.take_succ_cons, List.length_cons]
      exact ⟨trivial, by omega⟩
    · have e : size - 1 = 0 := by omega
      simp [concat_copy, h, e]

theorem concat_eq (srcs : List (List Nat)) (size : Nat) :
    concat srcs size = srcs.flatten.take (size - 1) := by
  induction srcs generalizing size with
  | nil => simp [concat]
  | cons src rest ih =>
    simp only [concat, (concat_copy_eq src size).1, (concat_copy_eq src size).2, ih,
      List.flatten_cons, List.take_append_eq_append_take]
    congr 2
    simp only [List.length_take]
    omega

/-- C20: the frame `xbus_send` sends is the text command, space, topic, line
feed, payload cut to its first 8191 bytes, followed by one NUL, so it has at
most 8192 bytes; `concat` leaves in `dst` the concatenation of its sources cut
to `size - 1` bytes and, for `size` at least 1, stores with the terminating NUL
no more than `size` bytes. -/
theorem xbus_send_frame (command topic payload : List Nat) (srcs : List (List Nat))
    (size : Nat) :
    xbus_send command topic payload =
      (command ++ [32] ++ topic ++ [10] ++ payload).take 8191 ++ [0] ∧
    (xbus_send command topic payload).length =
      min (command.length + 1 + topic.length + 1 + payload.length) 8191 + 1 ∧
    (xbus_send command topic payload).length ≤ XBUS_MAX_SIZE ∧
    concat srcs size = srcs.flatten.take (size - 1) ∧
    (1 ≤ size → (concat srcs size).length + 1 ≤ size) := by
  have h1 : xbus_send command topic payload =
      (command ++ [32] ++ topic ++ [10] ++ payload).take 8191 ++ [0] := by
    unfold xbus_send
    rw [concat_eq]
    simp [XBUS_MAX_SIZE]
  refine ⟨h1, ?_, ?_, concat_eq srcs size, ?_⟩
  · rw [h1]
    simp only [List.length_append, List.length_take, List.length_singleton]
    omega
  · rw [h1]
    simp only [List.length_append, List.length_take, List.length_singleton, XBUS_MAX_SIZE]
    omega
  · intro hs
    rw [concat_eq, List.length_take]
    omega

theorem xbus_send_frame_witness :
    xbus_send (bytes "WRITE") (bytes "t") (bytes "p") = bytes "WRITE t\np" ++ [0] ∧
    (concat [bytes "abc", bytes "de"] 4).length + 1 ≤ 4 ∧
    concat [bytes "abc", bytes "de"] 4 = bytes "abc" ∧
    concat [bytes "abc", bytes "de"] 1 = [] :=
  ⟨by decide,
    (xbus_send_frame [] [] [] [bytes "abc", bytes "de"] 4).2.2.2.2 (by decide),
    by decide, by decide⟩

theorem take_text_terminated (x y : List Nat) (n : Nat) (hx : 0 ∉ x) (hn : x.length ≤ n) :
    ((x ++ 0 :: y).take n).takeWhile (fun c => decide (c ≠ 0)) = x := by
  have hall : ∀ c ∈ x, decide (c ≠ 0) = true := by
    intro c hc
    have : c ≠ 0 := by
      rintro rfl
      exact hx hc
    simpa using this
  rw [List.take_append_eq_append_take, List.take_of_length_le hn]
  cases hk : n - x.length with
  | zero =>
    simp only [List.take_zero, List.append_nil]
    exact (takeWhile_all _ x hall).1
  | succ k =>
    simp only [List.take_succ_cons]
    exact (takeWhile_stop _ x _ 0 hall (by simp)).1

/-- C19: for a topic without line feed and a payload (C strings, so without
NUL byte) whose text topic, line feed, payload has at most 8191 bytes,
`send_packet` sends exactly that text and one NUL, and `xbus_receive` on these
bytes, whatever the static buffer held before, returns the topic and the
payload: the text is split at its first line feed and the line feeds of the
payload are kept. -/
theorem send_packet_xbus_receive (c : client) (t p old : List Nat) (ht10 : 10 ∉ t)
    (ht0 : 0 ∉ t) (hp0 : 0 ∉ p) (hlen : t.length + 1 + p.length ≤ 8191) :
    (send_packet c t p).data = t ++ [10] ++ p ++ [0] ∧
    xbus_receive old (send_packet c t p).data = some (t, p) := by
  have hl : (t ++ 10 :: p).length ≤ XBUS_MAX_SIZE - 1 := by
    simp only [List.length_append, List.length_cons, XBUS_MAX_SIZE]
    omega
  have hdata : (send_packet c t p).data = t ++ [10] ++ p ++ [0] := by
    simp only [send_packet, List.take_of_length_le hl]
    simp
  refine ⟨hdata, ?_⟩
  have h0 : 0 ∉ t ++ 10 :: p := by
    simp only [List.mem_append, List.mem_cons]
    rintro (h | h | h)
    · exact ht0 h
    · omega
    · exact hp0 h
  have hne : (t ++ [10] ++ p ++ [0]).length ≠ 0 := by simp
  have hbuf : t ++ [10] ++ p ++ [0] ++ old.drop (t ++ [10] ++ p ++ [0]).length =
      (t ++ 10 :: p) ++ 0 :: old.drop (t ++ [10] ++ p ++ [0]).length := by simp
  have hsplit := takeWhile_stop (fun c => decide (c ≠ 10)) t p 10
    (by
      intro x hx
      have : x ≠ 10 := by
        rintro rfl
        exact ht10 hx
      simpa using this) (by simp)
  rw [hdata]
  unfold xbus_receive
  simp only [hne, if_false, hbuf, take_text_terminated _ _ _ h0 hl, hsplit.1, hsplit.2,
    List.drop_succ_cons, List.drop_zero]

theorem send_packet_xbus_receive_witness :
    xbus_receive (bytes "stale bytes of an earlier and longer message")
      (send_packet { sk := 3, subscribe_ptr := [] } (bytes "a/b") (bytes "l1\nl2")).data =
      some (bytes "a/b", bytes "l1\nl2") :=
  (send_packet_xbus_receive { sk := 3, subscribe_ptr := [] } (bytes "a/b") (bytes "l1\nl2")
    (bytes "stale bytes of an earlier and longer message")
    (by decide) (by decide) (by decide) (by decide)).2

/-! ## Client registry: theorems -/

theorem destroy_client_absent (clients : List client) (sk : Int)
    (h : ∀ x ∈ clients, x.sk ≠ sk) : destroy_client clients sk = clients := by
  induction clients with
  | nil => rfl
  | cons this rest ih =>
    have h1 : this.sk ≠ sk := h this (by simp)
    simp only [destroy_client, h1, ne_eq, not_false_eq_true, if_true,
      ih (fun x hx => h x (List.mem_cons_of_mem _ hx))]

theorem destroy_client_present (clients : List client) (sk : Int)
    (h : ∃ x ∈ clients, x.sk = sk) :
    ∃ l1 x l2, clients = l1 ++ x :: l2 ∧ x.sk = sk ∧ (∀ y ∈ l1, y.sk ≠ sk) ∧
      destroy_client clients sk = l1 ++ l2 := by
  induction clients with
  | nil =>
    obtain ⟨x, hx, _⟩ := h
    simp at hx
  | cons this rest ih =>
    by_cases h1 : this.sk = sk
    · exact ⟨[], this, rest, rfl, h1, by simp, by simp [destroy_client, h1]⟩
    · obtain ⟨x, hx, e⟩ := h
      rcases List.mem_cons.1 hx with rfl | hx2
      · exact absurd e h1
      · obtain ⟨l1, y, l2, e1, e2, e3, e4⟩ := ih ⟨x, hx2, e⟩
        refine ⟨this :: l1, y, l2, by simp [e1], e2, ?_, by simp [destroy_client, h1, e4]⟩
        intro z hz
        rcases List.mem_cons.1 hz with rfl | hz2
        · exact h1
        · exact e3 z hz2

/-- C21: `destroy_client` leaves a registry without a record for the descriptor
as it is; otherwise it removes the first record with the descriptor (and with
it its subscription list) and keeps every other record, unchanged and in the
same order. The disconnect path of `receive_packet`, which calls it, leaves the
retained store as it is. -/
theorem destroy_client_contained (clients : List client) (sk : Int) (b : broker)
    (client_ptr : Nat) :
    ((∀ x ∈ clients, x.sk ≠ sk) → destroy_client clients sk = clients) ∧
    ((∃ x ∈ clients, x.sk = sk) →
      ∃ l1 x l2, clients = l1 ++ x :: l2 ∧ x.sk = sk ∧ (∀ y ∈ l1, y.sk ≠ sk) ∧
        destroy_client clients sk = l1 ++ l2) ∧
    (receive_packet b client_ptr []).1.first_message_ptr = b.first_message_ptr ∧
    (∀ c, b.first_client_ptr[client_ptr]? = some c →
      (receive_packet b client_ptr []).1.first_client_ptr =
        destroy_client b.first_client_ptr c.sk) := by
  refine ⟨destroy_client_absent clients sk, destroy_client_present clients sk, ?_, ?_⟩
  · unfold receive_packet
    cases b.first_client_ptr[client_ptr]? <;> simp
  · intro c hc
    unfold receive_packet
    simp [hc]

theorem destroy_client_contained_witness :
    destroy_client [{ sk := 3, subscribe_ptr := [⟨bytes "a"⟩] },
      { sk := 4, subscribe_ptr := [⟨bytes "b"⟩, ⟨bytes "c"⟩] },
      { sk := 5, subscribe_ptr := [⟨bytes "d"⟩] }] 9 =
      [{ sk := 3, subscribe_ptr := [⟨bytes "a"⟩] },
       { sk := 4, subscribe_ptr := [⟨bytes "b"⟩, ⟨bytes "c"⟩] },
       { sk := 5, subscribe_ptr := [⟨bytes "d"⟩] }] ∧
    destroy_client [{ sk := 3, subscribe_ptr := [⟨bytes "a"⟩] },
      { sk := 4, subscribe_ptr := [⟨bytes "b"⟩, ⟨bytes "c"⟩] },
      { sk := 5, subscribe_ptr := [⟨bytes "d"⟩] }] 4 =
      [{ sk := 3, subscribe_ptr := [⟨bytes "a"⟩] },
       { sk := 5, subscribe_ptr := [⟨bytes "d"⟩] }] :=
  ⟨(destroy_client_contained _ 9 { first_message_ptr := [], first_client_ptr := [] } 0).1
    (by decide), by decide⟩

/-! ## Topic matcher: a `+` inside a segment -/

theorem skip_segment_stops (topic : List Nat) :
    skip_segment topic = [] ∨ ∃ r, skip_segment topic = 47 :: r := by
  induction topic with
  | nil => exact Or.inl rfl
  | cons c topic ih =>
    by_cases h : c = 47
    · exact Or.inr ⟨topic, by simp [skip_segment, h]⟩
    · simpa [skip_segment, h] using ih

/-- C25: a pattern in which a `+` is directly followed by a byte other than
`/`, `+` and `*`, with no `*` before that `+`, matches no text: after the `+`
the text is at its end or at a `/`, and the next pattern byte is neither. -/
theorem match_topic_plus_inside_segment (text p q : List Nat) (c : Nat) (hp : 42 ∉ p)
    (hc47 : c ≠ 47) (hc43 : c ≠ 43) (hc42 : c ≠ 42) :
    match_topic text (p ++ [43] ++ [c] ++ q) = false := by
  have e : p ++ [43] ++ [c] ++ q = p ++ 43 :: c :: q := by simp
  rw [e]
  clear e
  induction p generalizing text with
  | nil =>
    rw [List.nil_append, match_topic_plus]
    rcases skip_segment_stops text with h | ⟨r, h⟩
    · rw [h]
      simp [match_topic, hc43, hc42]
    · rw [h]
      simp [match_topic, hc43, hc42, hc47]
  | cons r p ih =>
    have hr : r ≠ 42 := fun h => hp (by simp [h])
    have hp2 : 42 ∉ p := fun h => hp (List.mem_cons_of_mem _ h)
    by_cases h43 : r = 43
    · subst h43
      rw [List.cons_append, match_topic_plus]
      exact ih _ hp2
    · cases text with
      | nil => simp [match_topic, h43, hr]
      | cons x rest =>
        by_cases hx : r = x
        · subst hx
          simp only [List.cons_append, match_topic, h43, hr, if_false, ne_eq,
            not_true_eq_false]
          exact ih _ hp2
        · simp [match_topic, h43, hr, hx]

theorem match_topic_plus_inside_segment_witness :
    match_topic (bytes "ab") ([] ++ [43] ++ [98] ++ []) = false ∧
    match_topic (bytes "x/ab/y") (bytes "x/" ++ [43] ++ [98] ++ bytes "/y") = false :=
  ⟨match_topic_plus_inside_segment (bytes "ab") [] [] 98 (by decide) (by decide)
      (by decide) (by decide),
    by decide⟩

/-! ## Command router: the command token -/

theorem strtok_none_of_delims (s delim : List Nat)
    (h : s.dropWhile (fun c => decide (c ∈ delim)) = []) : strtok s delim = (none, []) := by
  unfold strtok
  simp only [h, if_true]

theorem strtok_some_of_token (s delim : List Nat)
    (h : s.dropWhile (fun c => decide (c ∈ delim)) ≠ []) :
    ∃ tok rest, strtok s delim = (some tok, rest) := by
  unfold strtok
  simp only [h, if_false]
  exact ⟨_, _, rfl⟩

/-- C26: whenever the second `strtok` of `receive_packet` returns a topic, the
first one returned a command, so the `strcmp` tests after the malformed-packet
check never see a NULL command; a frame made only of spaces and line feeds has
neither and is dropped without any effect. -/
theorem split_packet_command_defined (b : broker) (client_ptr : Nat) (buffer : List Nat) :
    (∀ topic, (split_packet buffer).2.1 = some topic →
      ∃ command, (split_packet buffer).1 = some command) ∧
    ((∀ x ∈ buffer, x = 32 ∨ x = 10) → 0 < buffer.length →
      split_packet buffer = (none, none, none) ∧
      receive_packet b client_ptr buffer = (b, [])) := by
  constructor
  · intro topic h
    by_cases hs : (buffer.takeWhile (fun c => decide (c ≠ 0))).dropWhile
        (fun c => decide (c ∈ [32, 10])) = []
    · have h1 := strtok_none_of_delims _ _ hs
      simp only [split_packet, h1, strtok_nil] at h
      cases h
    · obtain ⟨tok, rest, h1⟩ := strtok_some_of_token _ _ hs
      exact ⟨tok, by simp only [split_packet, h1]⟩
  · intro hall hpos
    have htext : buffer.takeWhile (fun c => decide (c ≠ 0)) = buffer := by
      apply (takeWhile_all _ buffer _).1
      intro x hx
      rcases hall x hx with rfl | rfl <;> decide
    have hdrop : buffer.dropWhile (fun c => decide (c ∈ [32, 10])) = [] := by
      apply (takeWhile_all _ buffer _).2
      intro x hx
      rcases hall x hx with rfl | rfl <;> decide
    have hs : split_packet buffer = (none, none, none) := by
      simp only [split_packet, htext, strtok_none_of_delims _ _ hdrop, strtok_nil]
    refine ⟨hs, ?_⟩
    unfold receive_packet
    cases b.first_client_ptr[client_ptr]? with
    | none => rfl
    | some c =>
      have h0 : buffer.length ≠ 0 := by omega
      simp only [h0, if_false, hs]
      split_ifs <;> rfl

theorem split_packet_command_defined_witness :
    split_packet (bytes " \n \n") = (none, none, none) ∧
    receive_packet
      { first_message_ptr := [], first_client_ptr := [{ sk := 3, subscribe_ptr := [] }] } 0
      (bytes " \n \n") =
      Prod.mk
        { first_message_ptr := [], first_client_ptr := [{ sk := 3, subscribe_ptr := [] }] }
        [] :=
  (split_packet_command_defined
    { first_message_ptr := [], first_client_ptr := [{ sk := 3, subscribe_ptr := [] }] } 0
    (bytes " \n \n")).2 (by decide) (by decide)

/-! ## Library requests at the broker -/

theorem xbus_send_eq (command topic payload : List Nat) :
    xbus_send command topic payload =
      (command ++ [32] ++ topic ++ [10] ++ payload).take (XBUS_MAX_SIZE - 1) ++ [0] := by
  unfold xbus_send
  rw [concat_eq]
  simp

/-- C24: when the text command, space, topic, line feed, payload has at least
8191 bytes, the frame of `xbus_send` has exactly 8192 bytes and
`receive_packet` returns the state unchanged and sends nothing; when it has at
most 8190 bytes, the strings contain no NUL, the command is not empty and free
of spaces and line feeds and the topic is not empty and free of line feeds,
`receive_packet` runs the handler of exactly that command with that topic and
payload. -/
theorem xbus_send_receive_packet (b : broker) (client_ptr : Nat) (c : client)
    (command topic payload : List Nat)
    (hreg : b.first_client_ptr[client_ptr]? = some c) :
    (8191 ≤ command.length + 1 + topic.length + 1 + payload.length →
      (xbus_send command topic payload).length = 8192 ∧
      receive_packet b client_ptr (xbus_send command topic payload) = (b, [])) ∧
    (command.length + 1 + topic.length + 1 + payload.length ≤ 8190 →
      0 ∉ command → 0 ∉ topic → 0 ∉ payload →
      command ≠ [] → 32 ∉ command → 10 ∉ command → topic ≠ [] → 10 ∉ topic →
      receive_packet b client_ptr (xbus_send command topic payload) =
        route_command b client_ptr command topic payload) := by
  constructor
  · intro hlen
    have hl : (xbus_send command topic payload).length = 8192 := by
      rw [xbus_send_eq]
      simp only [List.length_append, List.length_take, List.length_singleton, XBUS_MAX_SIZE]
      omega
    refine ⟨hl, ?_⟩
    unfold receive_packet
    rw [hreg]
    have h0 : XBUS_MAX_SIZE ≠ 0 := by decide
    have h1 : (xbus_send command topic payload).length = XBUS_MAX_SIZE := hl
    simp only [h1, h0, if_true, if_false]
  · intro hlen hc0 ht0 hp0 hcmd hc32 hc10 ht ht10
    have hl : (command ++ [32] ++ topic ++ [10] ++ payload).length ≤ XBUS_MAX_SIZE - 1 := by
      simp only [List.length_append, List.length_singleton, XBUS_MAX_SIZE]
      omega
    rw [xbus_send_eq, List.take_of_length_le hl]
    have hs := split_packet_request command topic payload [0] hcmd hc32 hc10 hc0 ht ht10
      ht0 hp0 (Or.inr ⟨[], rfl⟩)
    have hl2 : (command ++ [32] ++ topic ++ [10] ++ payload ++ [0]).length <
        XBUS_MAX_SIZE := by
      simp only [List.length_append, List.length_singleton, XBUS_MAX_SIZE]
      omega
    rw [receive_packet_route b client_ptr c _ command topic _ hreg hl2 hs ht]
    by_cases hp : payload = []
    · simp [hp]
    · simp [hp]

theorem xbus_send_receive_packet_witness :
    (xbus_send (bytes "WRITE") (bytes "t") (List.replicate 8183 120)).length = 8192 ∧
    receive_packet
      { first_message_ptr := [], first_client_ptr := [{ sk := 3, subscribe_ptr := [] }] } 0
      (xbus_send (bytes "WRITE") (bytes "t") (List.replicate 8183 120)) =
      Prod.mk
        { first_message_ptr := [], first_client_ptr := [{ sk := 3, subscribe_ptr := [] }] }
        [] :=
  (xbus_send_receive_packet
    { first_message_ptr := [], first_client_ptr := [{ sk := 3, subscribe_ptr := [] }] } 0
    { sk := 3, subscribe_ptr := [] } (bytes "WRITE") (bytes "t") (List.replicate 8183 120)
    (by decide)).1 (by
      rw [List.length_replicate]
      decide)

/-! ## Retained message store: the payload buffers -/

theorem store_message_alloc_fits (l : List message_buffer) (t p : List Nat)
    (hinv : ∀ mb ∈ l, mb.entry.payload.length ≤ mb.entry.size ∧
      mb.allocated = mb.entry.size + 1) :
    ∃ l2, store_message_alloc l t p = some l2 ∧
      l2.map message_buffer.entry = store_message (l.map message_buffer.entry) t p ∧
      ∀ mb ∈ l2, mb.entry.payload.length ≤ mb.entry.size ∧
        mb.allocated = mb.entry.size + 1 := by
  induction l with
  | nil =>
    refine ⟨_, rfl, by simp [store_message], ?_⟩
    intro mb hmb
    simp only [List.mem_singleton] at hmb
    subst hmb
    exact ⟨Nat.le_refl _, rfl⟩
  | cons this rest ih =>
    have hthis := hinv this (by simp)
    have hrest : ∀ mb ∈ rest, mb.entry.payload.length ≤ mb.entry.size ∧
        mb.allocated = mb.entry.size + 1 := fun mb hmb => hinv mb (List.mem_cons_of_mem _ hmb)
    by_cases h1 : strcmp this.entry.topic t < 0
    · obtain ⟨l3, e1, e2, e3⟩ := ih hrest
      refine ⟨this :: l3, by simp [store_message_alloc, h1, e1],
        by simp [store_message, h1, e2], ?_⟩
      intro mb hmb
      rcases List.mem_cons.1 hmb with rfl | hmb2
      · exact hthis
      · exact e3 mb hmb2
    · by_cases h2 : strcmp this.entry.topic t = 0
      · by_cases h3 : p.length > this.entry.size
        · refine ⟨message_buffer.mk (message.mk p.length this.entry.topic p)
              (p.length + 1) :: rest,
            by simp [store_message_alloc, h2, h3], by simp [store_message, h2, h3], ?_⟩
          intro mb hmb
          rcases List.mem_cons.1 hmb with rfl | hmb2
          · exact ⟨Nat.le_refl _, rfl⟩
          · exact hrest mb hmb2
        · have h4 : p.length + 1 ≤ this.allocated := by
            rw [hthis.2]
            omega
          refine ⟨message_buffer.mk (message.mk this.entry.size this.entry.topic p)
              this.allocated :: rest,
            by simp [store_message_alloc, h2, h3, h4], by simp [store_message, h2, h3], ?_⟩
          intro mb hmb
          rcases List.mem_cons.1 hmb with rfl | hmb2
          · exact ⟨by simp only; omega, hthis.2⟩
          · exact hrest mb hmb2
      · refine ⟨message_buffer.mk (message.mk p.length t p) (p.length + 1) :: this :: rest,
          by simp [store_message_alloc, h1, h2], by simp [store_message, h1, h2], ?_⟩
        intro mb hmb
        rcases List.mem_cons.1 hmb with rfl | hmb2
        · exact ⟨Nat.le_refl _, rfl⟩
        · exact hinv mb hmb2

theorem alloc_after_append (ws : List (List Nat × List Nat)) (t p : List Nat) :
    alloc_after (ws ++ [(t, p)]) =
      (alloc_after ws).bind (fun l => store_message_alloc l t p) := by
  simp [alloc_after, List.foldl_append]

theorem alloc_after_fits (writes : List (List Nat × List Nat)) :
    ∃ l, alloc_after writes = some l ∧
      l.map message_buffer.entry = store_after writes ∧
      ∀ mb ∈ l, mb.entry.payload.length ≤ mb.entry.size ∧
        mb.allocated = mb.entry.size + 1 := by
  induction writes using List.reverseRecOn with
  | nil => exact ⟨[], rfl, rfl, by simp⟩
  | append_singleton ws w ih =>
    obtain ⟨t, p⟩ := w
    obtain ⟨l, e1, e2, e3⟩ := ih
    obtain ⟨l2, f1, f2, f3⟩ := store_message_alloc_fits l t p e3
    refine ⟨l2, ?_, ?_, f3⟩
    · rw [alloc_after_append, e1]
      exact f1
    · rw [store_after_append, ← e2]
      exact f2

/-- C23: in every store built by `store_message` calls each entry's payload is
no longer than its `size`; with the payload buffers tracked, every buffer has
`size + 1` bytes allocated and no call ever takes the in-place `strcpy` with
more than that to write (the tracked run never fails), the tracked entries
being exactly those of `store_message`. -/
theorem store_buffer_fit (writes : List (List Nat × List Nat)) :
    (∀ m ∈ store_after writes, m.payload.length ≤ m.size) ∧
    ∃ l, alloc_after writes = some l ∧
      l.map message_buffer.entry = store_after writes ∧
      ∀ mb ∈ l, mb.entry.payload.length + 1 ≤ mb.allocated ∧
        mb.allocated = mb.entry.size + 1 := by
  obtain ⟨l, e1, e2, e3⟩ := alloc_after_fits writes
  constructor
  · intro m hm
    rw [← e2] at hm
    obtain ⟨mb, hmb, rfl⟩ := List.mem_map.1 hm
    exact (e3 mb hmb).1
  · refine ⟨l, e1, e2, ?_⟩
    intro mb hmb
    have := e3 mb hmb
    exact ⟨by omega, this.2⟩

/-! ## Reachable states: no response is cut -/

theorem strtok_length (s delim tok rest : List Nat) (h : strtok s delim = (some tok, rest)) :
    tok.length + rest.length + (if rest = [] then 0 else 1) ≤ s.length := by
  unfold strtok at h
  by_cases hs : s.dropWhile (fun c => decide (c ∈ delim)) = []
  · simp [hs] at h
  · simp only [hs, if_false, Prod.mk.injEq, Option.some.injEq] at h
    obtain ⟨rfl, rfl⟩ := h
    have h1 := congrArg List.length (List.takeWhile_append_dropWhile
      (fun c => decide (c ∉ delim)) (s.dropWhile (fun c => decide (c ∈ delim))))
    have h2 := (List.dropWhile_sublist (fun c => decide (c ∈ delim)) (l := s)).length_le
    rw [List.length_append] at h1
    split_ifs with h3
    · simp only [List.length_drop] at h1 ⊢
      omega
    · have h4 : ((s.dropWhile (fun c => decide (c ∈ delim))).dropWhile
          (fun c => decide (c ∉ delim))).length ≠ 0 := by
        intro e
        rw [List.length_eq_zero.1 e] at h3
        exact h3 rfl
      simp only [List.length_drop] at h1 ⊢
      omega

theorem strtok_rest_payload (s : List Nat) : (strtok s []).1.getD [] = s := by
  cases s with
  | nil => simp [strtok]
  | cons c s => simp [strtok]

/-- The tokens `receive_packet` extracts, with the delimiters between them, fit
in the received bytes. -/
theorem split_packet_length (buffer command topic : List Nat) (payload : Option (List Nat))
    (h : split_packet buffer = (some command, some topic, payload)) :
    command.length + 1 + topic.length + 1 + (payload.getD []).length ≤ buffer.length + 1 := by
  simp only [split_packet, Prod.mk.injEq] at h
  generalize htx : List.takeWhile _ buffer = text at h
  generalize hr1 : strtok text [32, 10] = r1 at h
  generalize hr2 : strtok r1.2 [10] = r2 at h
  obtain ⟨h1, h2, h3⟩ := h
  have htext : text.length ≤ buffer.length := by
    rw [← htx]
    exact (List.takeWhile_sublist _).length_le
  have hr1ne : r1.2 ≠ [] := by
    intro e
    rw [e, strtok_nil] at hr2
    rw [← hr2] at h2
    cases h2
  have l1 := strtok_length text [32, 10] command r1.2 (by rw [hr1, ← h1])
  have l2 := strtok_length r1.2 [10] topic r2.2 (by rw [hr2, ← h2])
  have hpl := strtok_rest_payload r2.2
  rw [h3] at hpl
  rw [hpl]
  simp only [hr1ne, if_false] at l1
  split_ifs at l2 <;> omega

theorem mem_store_message_payload (s : List message) (t p : List Nat) (m : message)
    (h : m ∈ store_message s t p) : m ∈ s ∨ (m.topic = t ∧ m.payload = p) := by
  induction s with
  | nil =>
    simp only [store_message, List.mem_singleton] at h
    subst h
    exact Or.inr ⟨rfl, rfl⟩
  | cons this rest ih =>
    simp only [store_message] at h
    split_ifs at h with h1 h2 h3
    · rcases List.mem_cons.1 h with rfl | h
      · exact Or.inl (by simp)
      · rcases ih h with h4 | h4
        · exact Or.inl (List.mem_cons_of_mem _ h4)
        · exact Or.inr h4
    · rcases List.mem_cons.1 h with rfl | h
      · exact Or.inr ⟨(strcmp_eq_zero _ _).1 h2, rfl⟩
      · exact Or.inl (List.mem_cons_of_mem _ h)
    · rcases List.mem_cons.1 h with rfl | h
      · exact Or.inr ⟨(strcmp_eq_zero _ _).1 h2, rfl⟩
      · exact Or.inl (List.mem_cons_of_mem _ h)
    · rcases List.mem_cons.1 h with rfl | h
      · exact Or.inr ⟨rfl, rfl⟩
      · exact Or.inl h

theorem process_read_state (b : broker) (client_ptr : Nat) (topic : List Nat) :
    (process_read b client_ptr topic).1 = b := by
  unfold process_read
  cases b.first_client_ptr[client_ptr]? with
  | none => rfl
  | some c => cases find_stored_message b.first_message_ptr topic <;> rfl

theorem process_subscribe_store (b : broker) (client_ptr : Nat) (topic : List Nat) :
    (process_subscribe b client_ptr topic).1.first_message_ptr = b.first_message_ptr := by
  unfold process_subscribe
  cases b.first_client_ptr[client_ptr]? <;> rfl

theorem process_unsubscribe_store (b : broker) (client_ptr : Nat) (topic : List Nat) :
    (process_unsubscribe b client_ptr topic).1.first_message_ptr = b.first_message_ptr := by
  unfold process_unsubscribe
  cases b.first_client_ptr[client_ptr]? <;> rfl

theorem process_list_state (b : broker) (client_ptr : Nat) :
    (process_list b client_ptr).1 = b := by
  unfold process_list
  cases b.first_client_ptr[client_ptr]? <;> rfl

/-- The only change `receive_packet` makes to the store is one `store_message`
with the topic and payload of a WRITE request, which fit in 8186 bytes. -/
theorem receive_packet_store (b : broker) (client_ptr : Nat) (buffer : List Nat)
    (hlen : buffer.length ≤ XBUS_MAX_SIZE) :
    (receive_packet b client_ptr buffer).1.first_message_ptr = b.first_message_ptr ∨
    ∃ t p, t.length + 1 + p.length ≤ 8186 ∧
      (receive_packet b client_ptr buffer).1.first_message_ptr =
        store_message b.first_message_ptr t p := by
  cases hreg : b.first_client_ptr[client_ptr]? with
  | none => exact Or.inl (by simp [receive_packet, hreg])
  | some c =>
    by_cases h0 : buffer.length = 0
    · exact Or.inl (by simp [receive_packet, hreg, h0])
    · by_cases hmax : buffer.length = XBUS_MAX_SIZE
      · have hm0 : XBUS_MAX_SIZE ≠ 0 := by decide
        exact Or.inl (by simp [receive_packet, hreg, hmax, hm0])
      · have hlt : buffer.length < XBUS_MAX_SIZE := by omega
        rcases hsp : split_packet buffer with ⟨cmd, top, pay⟩
        cases top with
        | none => exact Or.inl (by simp [receive_packet, hreg, h0, hmax, hsp])
        | some topic =>
          cases cmd with
          | none => exact Or.inl (by simp [receive_packet, hreg, h0, hmax, hsp])
          | some command =>
            by_cases ht : topic = []
            · exact Or.inl (by simp [receive_packet, hreg, h0, hmax, hsp, ht])
            · rw [receive_packet_route b client_ptr c buffer command topic pay hreg hlt hsp ht]
              have hl := split_packet_length buffer command topic pay hsp
              unfold route_command
              split_ifs with h1 h2 h3 h4 h5 h6
              · exact Or.inl rfl
              · refine Or.inr ⟨topic, pay.getD [], ?_, rfl⟩
                have hc : command.length = 5 := by
                  rw [(strcmp_eq_zero _ _).1 h2]
                  decide
                simp only [XBUS_MAX_SIZE] at hlt
                omega
              · exact Or.inl (by rw [process_read_state])
              · exact Or.inl (process_subscribe_store _ _ _)
              · exact Or.inl (process_unsubscribe_store _ _ _)
              · exact Or.inl (by rw [process_list_state])
              · exact Or.inl rfl

theorem broker_after_append (events : List event) (e : event) :
    broker_after (events ++ [e]) = broker_step (broker_after events) e := by
  simp [broker_after, List.foldl_append]

theorem broker_after_store_bound (events : List event)
    (hev : ∀ i buf, event.receive i buf ∈ events → buf.length ≤ XBUS_MAX_SIZE) :
    ∀ m ∈ (broker_after events).first_message_ptr,
      m.topic.length + 1 + m.payload.length ≤ 8186 := by
  induction events using List.reverseRecOn with
  | nil => simp [broker_after]
  | append_singleton es e ih =>
    have ih2 := ih (fun i buf h => hev i buf (List.mem_append_left _ h))
    rw [broker_after_append]
    cases e with
    | accept sk => exact ih2
    | receive i buf =>
      have hb : buf.length ≤ XBUS_MAX_SIZE := hev i buf (by simp)
      simp only [broker_step]
      rcases receive_packet_store (broker_after es) i buf hb with h | ⟨t, p, hl, h⟩
      · rw [h]
        exact ih2
      · rw [h]
        intro m hm
        rcases mem_store_message_payload _ t p m hm with h2 | ⟨e1, e2⟩
        · exact ih2 m h2
        · rw [e1, e2]
          exact hl

theorem dropWhile_head_stops (P : Nat → Bool) (s r : List Nat) (x : Nat)
    (h : s.dropWhile P = x :: r) : P x = false := by
  induction s with
  | nil => simp at h
  | cons y s ih =>
    by_cases hy : P y = true
    · simp only [List.dropWhile_cons, hy, if_true] at h
      exact ih h
    · simp only [List.dropWhile_cons, hy, if_false] at h
      have e : y = x := (List.cons.inj h).1
      rw [← e]
      simpa using hy

/-- A token returned by `strtok` is never the empty string. -/
theorem strtok_token_ne_nil (s delim tok rest : List Nat)
    (h : strtok s delim = (some tok, rest)) : tok ≠ [] := by
  unfold strtok at h
  by_cases hs : s.dropWhile (fun c => decide (c ∈ delim)) = []
  · simp [hs] at h
  · simp only [hs, if_false, Prod.mk.injEq, Option.some.injEq] at h
    obtain ⟨rfl, _⟩ := h
    obtain ⟨x, r, hx⟩ := List.exists_cons_of_ne_nil hs
    have hP := dropWhile_head_stops _ s r x hx
    rw [hx]
    have hx2 : x ∉ delim := by simpa using hP
    simp [List.takeWhile_cons, hx2]

theorem split_packet_topic_ne_nil (buffer command topic : List Nat)
    (payload : Option (List Nat))
    (h : split_packet buffer = (some command, some topic, payload)) : topic ≠ [] := by
  simp only [split_packet, Prod.mk.injEq] at h
  generalize hr1 : strtok (List.takeWhile _ buffer) [32, 10] = r1 at h
  generalize hr2 : strtok r1.2 [10] = r2 at h
  exact strtok_token_ne_nil r1.2 [10] topic r2.2 (by rw [hr2, ← h.2.1])

theorem send_packet_whole (c : client) (t p : List Nat)
    (h : t.length + 1 + p.length ≤ 8191) :
    send_packet c t p = { sk := c.sk, data := t ++ [10] ++ p ++ [0] } := by
  have hl : (t ++ 10 :: p).length ≤ XBUS_MAX_SIZE - 1 := by
    simp only [List.length_append, List.length_cons, XBUS_MAX_SIZE]
    omega
  simp only [send_packet, List.take_of_length_le hl]
  simp

theorem route_command_publish (b : broker) (i : Nat) (t p : List Nat) :
    route_command b i (bytes "PUBLISH") t p = process_publish b i t p := by
  unfold route_command
  rw [if_pos (by decide)]

theorem route_command_write (b : broker) (i : Nat) (t p : List Nat) :
    route_command b i (bytes "WRITE") t p = process_write b i t p := by
  unfold route_command
  rw [if_neg (by decide), if_pos (by decide)]

theorem route_command_read (b : broker) (i : Nat) (t p : List Nat) :
    route_command b i (bytes "READ") t p = process_read b i t := by
  unfold route_command
  rw [if_neg (by decide), if_neg (by decide), if_pos (by decide)]

theorem route_command_subscribe (b : broker) (i : Nat) (t p : List Nat) :
    route_command b i (bytes "SUBSCRIBE") t p = process_subscribe b i t := by
  unfold route_command
  rw [if_neg (by decide), if_neg (by decide), if_neg (by decide), if_pos (by decide)]

theorem route_command_list (b : broker) (i : Nat) (t p : List Nat) :
    route_command b i (bytes "LIST") t p = process_list b i := by
  unfold route_command
  rw [if_neg (by decide), if_neg (by decide), if_neg (by decide), if_neg (by decide),
    if_neg (by decide), if_pos (by decide)]

theorem dispatch_message_whole (clients : List client) (o : Nat) (t p : List Nat)
    (h : t.length + 1 + p.length ≤ 8191) :
    dispatch_message clients o t p =
      (clients.enum.filter (fun ic => decide (ic.1 ≠ o) &&
        ic.2.subscribe_ptr.any (fun s => match_topic t s.topic))).map
          (fun ic => packet.mk ic.2.sk (t ++ [10] ++ p ++ [0])) := by
  unfold dispatch_message
  rw [dispatch_loop_eq]
  apply List.map_congr_left
  intro ic _
  exact send_packet_whole ic.2 t p h

/-- C22: in a state reached from the empty broker by accepted connections and
received buffers of at most 8192 bytes, every retained entry has
`len(topic) + 1 + len(payload) <= 8186`, and `send_packet` copies a topic and
payload with `len(topic) + 1 + len(payload) <= 8191` whole. For a request
frame shorter than 8192 bytes every packet then goes out whole: the dispatch of
PUBLISH and WRITE, the replay of SUBSCRIBE, the reply of READ and the reply of
LIST each send exactly topic, line feed, payload and one NUL. -/
theorem broker_never_truncates (events : List event) (client_ptr : Nat) (c : client)
    (buffer command topic : List Nat) (payload : Option (List Nat))
    (hev : ∀ i buf, event.receive i buf ∈ events → buf.length ≤ XBUS_MAX_SIZE)
    (hreg : (broker_after events).first_client_ptr[client_ptr]? = some c)
    (hlen : buffer.length < XBUS_MAX_SIZE)
    (hsplit : split_packet buffer = (some command, some topic, payload)) :
    (∀ m ∈ (broker_after events).first_message_ptr,
      m.topic.length + 1 + m.payload.length ≤ 8186) ∧
    (∀ (c2 : client) (t p : List Nat), t.length + 1 + p.length ≤ 8191 →
      (send_packet c2 t p).data = t ++ [10] ++ p ++ [0]) ∧
    ((command = bytes "PUBLISH" ∨ command = bytes "WRITE") →
      topic.length + 1 + (payload.getD []).length ≤ 8191 ∧
      (receive_packet (broker_after events) client_ptr buffer).2 =
        ((broker_after events).first_client_ptr.enum.filter
          (fun ic => decide (ic.1 ≠ client_ptr) &&
            ic.2.subscribe_ptr.any (fun s => match_topic topic s.topic))).map
              (fun ic => packet.mk ic.2.sk (topic ++ [10] ++ payload.getD [] ++ [0]))) ∧
    (command = bytes "SUBSCRIBE" →
      (receive_packet (broker_after events) client_ptr buffer).2 =
        ((broker_after events).first_message_ptr.filter
          (fun m => decide (m.payload ≠ []) && match_topic m.topic topic)).map
            (fun m => packet.mk c.sk (m.topic ++ [10] ++ m.payload ++ [0]))) ∧
    (command = bytes "READ" →
      ∃ pl, topic.length + 1 + pl.length ≤ 8191 ∧
        (pl = [] ∨ ∃ m, find_stored_message (broker_after events).first_message_ptr topic =
          some m ∧ pl = m.payload) ∧
        (receive_packet (broker_after events) client_ptr buffer).2 =
          [packet.mk c.sk (topic ++ [10] ++ pl ++ [0])]) ∧
    (command = bytes "LIST" →
      (bytes "%list").length + 1 +
          (list_loop [] (broker_after events).first_message_ptr).length ≤ 8191 ∧
        (receive_packet (broker_after events) client_ptr buffer).2 =
          [packet.mk c.sk (bytes "%list" ++ [10] ++
            list_loop [] (broker_after events).first_message_ptr ++ [0])]) := by
  have hinv := broker_after_store_bound events hev
  have ht := split_packet_topic_ne_nil buffer command topic payload hsplit
  have hl := split_packet_length buffer command topic payload hsplit
  have hroute := receive_packet_route (broker_after events) client_ptr c buffer command topic
    payload hreg hlen hsplit ht
  simp only [XBUS_MAX_SIZE] at hlen
  refine ⟨hinv, fun c2 t p h => by rw [send_packet_whole c2 t p h], ?_, ?_, ?_, ?_⟩
  · intro hcmd
    have hb : topic.length + 1 + (payload.getD []).length ≤ 8191 := by omega
    refine ⟨hb, ?_⟩
    rw [hroute]
    rcases hcmd with rfl | rfl
    · rw [route_command_publish]
      exact dispatch_message_whole _ _ _ _ hb
    · rw [route_command_write]
      exact dispatch_message_whole _ _ _ _ hb
  · rintro rfl
    rw [hroute, route_command_subscribe]
    simp only [process_subscribe, hreg, send_stored_messages_eq]
    apply List.map_congr_left
    intro m hm
    have := hinv m (List.mem_filter.1 hm).1
    exact send_packet_whole _ m.topic m.payload (by omega)
  · rintro rfl
    have hc : (bytes "READ").length = 4 := by decide
    rw [hc] at hl
    rw [hroute, route_command_read]
    cases hf : find_stored_message (broker_after events).first_message_ptr topic with
    | none =>
      refine ⟨[], by simp only [List.length_nil]; omega, Or.inl rfl, ?_⟩
      simp only [process_read, hreg, hf]
      rw [send_packet_whole c topic [] (by simp only [List.length_nil]; omega)]
    | some m =>
      obtain ⟨hm, hmt⟩ := find_stored_message_some _ _ _ hf
      have hbound := hinv m hm
      rw [hmt] at hbound
      refine ⟨m.payload, by omega, Or.inr ⟨m, rfl, rfl⟩, ?_⟩
      simp only [process_read, hreg, hf]
      rw [send_packet_whole c topic m.payload (by omega)]
  · rintro rfl
    obtain ⟨k, _, _, hlist, _, _⟩ := list_loop_spec (broker_after events).first_message_ptr []
    have hll := hlist (by simp)
    have h5 : (bytes "%list").length = 5 := by decide
    refine ⟨by omega, ?_⟩
    rw [hroute, route_command_list]
    simp only [process_list, hreg]
    rw [send_packet_whole c (bytes "%list") _ (by omega)]

theorem broker_never_truncates_witness :
    (∀ m ∈ (broker_after [event.accept 3, event.accept 4,
        event.receive 0 (bytes "SUBSCRIBE a/+"),
        event.receive 1 (bytes "WRITE a/b\nhello")]).first_message_ptr,
      m.topic.length + 1 + m.payload.length ≤ 8186) ∧
    (receive_packet (broker_after [event.accept 3, event.accept 4,
        event.receive 0 (bytes "SUBSCRIBE a/+"),
        event.receive 1 (bytes "WRITE a/b\nhello")]) 1 (bytes "READ a/b")).2 =
      [{ sk := 3, data := bytes "a/b\nhello" ++ [0] }] := by
  have h := broker_never_truncates [event.accept 3, event.accept 4,
      event.receive 0 (bytes "SUBSCRIBE a/+"),
      event.receive 1 (bytes "WRITE a/b\nhello")] 1
    { sk := 3, subscribe_ptr := [] } (bytes "READ a/b") (bytes "READ") (bytes "a/b") none
    (by
      intro i buf hmem
      simp at hmem
      rcases hmem with ⟨_, rfl⟩ | ⟨_, rfl⟩ <;> decide)
    (by decide) (by decide) (by decide)
  exact ⟨h.1, by decide⟩

end Xbus
